import Mathlib

/-!
Verification development for the `entropy_based_binning` repository
(`entropy_based_binning/_main.py`).

The Python functions are shallowly embedded as Lean functions over `List ℤ`
(integer sequences).  Floating-point arithmetic of the original is modelled as
exact real arithmetic; the floating-point NaN produced by `0 * log2(0)` is
tracked explicitly by a Boolean predicate, and the running-best comparison of
`bin_sequence` is carried out on the exact integer surrogate
`prod_i count_i ^ count_i` (anti-monotone image of the entropy for a fixed
sample size), so that the whole search is executable.  Python exceptions are
modelled with `Except`.
-/

namespace Ebb

/-- Failure outcomes of the embedded functions.  The Python code has no
dedicated error classes: `badNbins` is the `AssertionError` raised by the
power-of-two assertion of `bin_sequence_approximately`, `uninitializedBest` is
the `UnboundLocalError` raised when `bin_sequence` reads `best_binning` without
ever having assigned it, `emptyMax` is the `ValueError` raised by
`np.max(smaller)` on an empty array, and `emptyInput` is the `ValueError`
raised by `np.nanmin` on an empty sequence. -/
inductive Err
  | emptyInput
  | badNbins
  | uninitializedBest
  | emptyMax
  | badAxis
  deriving DecidableEq, Repr

variable {α : Type*}

/-- Model of `itertools.combinations(l, n)`: all subsequences of `l` of length
`n`, enumerated in the order `itertools.combinations` produces them. -/
def combinations : ℕ → List α → List (List α)
  | 0, _ => [[]]
  | _ + 1, [] => []
  | n + 1, x :: xs => (combinations n xs).map (x :: ·) ++ combinations (n + 1) xs

/-- The group of slices `[base[lo:c1], base[c1:c2], ..., base[ck:]]` produced
by `_generate_bins` for one tuple `ixs = (c1, ..., ck)` of cut positions (the
Python builds them as `base[lo:hi] for lo, hi in zip((0,)+ixs, ixs+(nbase,))`;
a slice `base[lo:hi]` is `(base.drop lo).take (hi - lo)`). -/
def slicesFrom (base : List α) : ℕ → List ℕ → List (List α)
  | lo, [] => [base.drop lo]
  | lo, c :: cs => (base.drop lo).take (c - lo) :: slicesFrom base c cs

/-- Model of `_generate_bins(seq, nbins)`: for every combination of `nbins - 1`
cut positions drawn from the internal gaps `range(1, nbase)`, the corresponding
list of contiguous slices of `seq`. -/
def generateBins (base : List α) (nbins : ℕ) : List (List (List α)) :=
  (combinations (nbins - 1) (List.range' 1 (base.length - 1))).map
    (slicesFrom base 0)

/-- The specification's notion of a valid partition: exactly `nbins` groups,
all non-empty, whose in-order concatenation is the base sequence (this captures
contiguity, disjointness and full coverage at once). -/
def IsNPartition (base : List α) (nbins : ℕ) (p : List (List α)) : Prop :=
  p.length = nbins ∧ p.flatten = base ∧ ∀ g ∈ p, g ≠ []

instance (base : List ℤ) (nbins : ℕ) (p : List (List ℤ)) :
    Decidable (IsNPartition base nbins p) := by
  unfold IsNPartition; infer_instance

theorem length_combinations (n : ℕ) (l : List α) :
    (combinations n l).length = l.length.choose n := by
  induction l generalizing n with
  | nil => cases n <;> simp [combinations]
  | cons x xs ih =>
    cases n with
    | zero => simp [combinations]
    | succ n =>
      simp [combinations, ih, Nat.choose_succ_succ]

theorem mem_combinations {n : ℕ} {l c : List α} :
    c ∈ combinations n l ↔ c.Sublist l ∧ c.length = n := by
  induction l generalizing n c with
  | nil =>
    cases n with
    | zero =>
      simp only [combinations, List.mem_singleton]
      constructor
      · rintro rfl; exact ⟨List.Sublist.refl _, rfl⟩
      · rintro ⟨hs, _⟩; exact List.sublist_nil.mp hs
    | succ n =>
      simp only [combinations, List.not_mem_nil, false_iff, not_and]
      intro hs
      rw [List.sublist_nil.mp hs]
      simp
  | cons x xs ih =>
    cases n with
    | zero =>
      simp only [combinations, List.mem_singleton]
      constructor
      · rintro rfl; exact ⟨List.nil_sublist _, rfl⟩
      · rintro ⟨_, hl⟩; exact List.length_eq_zero.mp hl
    | succ n =>
      simp only [combinations, List.mem_append, List.mem_map]
      rw [List.sublist_cons_iff]
      constructor
      · rintro (⟨c', hc', rfl⟩ | hmem)
        · rcases ih.mp hc' with ⟨hs, hl⟩
          exact ⟨Or.inr ⟨c', rfl, hs⟩, by simp [hl]⟩
        · rcases ih.mp hmem with ⟨hs, hl⟩
          exact ⟨Or.inl hs, hl⟩
      · rintro ⟨hs | ⟨r, rfl, hr⟩, hl⟩
        · exact Or.inr (ih.mpr ⟨hs, hl⟩)
        · refine Or.inl ⟨r, ih.mpr ⟨hr, ?_⟩, rfl⟩
          simpa using hl

theorem length_slicesFrom (base : List α) (lo : ℕ) (cs : List ℕ) :
    (slicesFrom base lo cs).length = cs.length + 1 := by
  induction cs generalizing lo with
  | nil => rfl
  | cons c cs ih => simp [slicesFrom, ih]

theorem flatten_slicesFrom (base : List α) :
    ∀ (cs : List ℕ) (lo : ℕ), List.Chain (· ≤ ·) lo cs →
      (slicesFrom base lo cs).flatten = base.drop lo := by
  intro cs
  induction cs with
  | nil => intro lo _; simp [slicesFrom]
  | cons c cs ih =>
    intro lo hch
    rcases (List.chain_cons.mp hch) with ⟨hlc, hch'⟩
    simp only [slicesFrom, List.flatten_cons, ih c hch']
    have h2 : List.drop (c - lo) (List.drop lo base) = List.drop c base := by
      rw [List.drop_drop]; congr 1; omega
    conv_rhs => rw [← List.take_append_drop (c - lo) (List.drop lo base)]
    rw [h2]

theorem ne_nil_of_mem_slicesFrom (base : List α) :
    ∀ (cs : List ℕ) (lo : ℕ), List.Chain (· < ·) lo cs →
      (∀ x ∈ lo :: cs, x < base.length) →
      ∀ g ∈ slicesFrom base lo cs, g ≠ [] := by
  intro cs
  induction cs with
  | nil =>
    intro lo _ hb g hg
    simp only [slicesFrom, List.mem_singleton] at hg
    subst hg
    intro hnil
    rcases List.drop_eq_nil_iff.mp hnil with h
    exact absurd (hb lo (by simp)) (by omega)
  | cons c cs ih =>
    intro lo hch hb g hg
    rcases (List.chain_cons.mp hch) with ⟨hlc, hch'⟩
    simp only [slicesFrom, List.mem_cons] at hg
    rcases hg with rfl | hg
    · intro hnil
      rcases List.take_eq_nil_iff.mp hnil with h | h
      · omega
      · rcases List.drop_eq_nil_iff.mp h with h'
        exact absurd (hb lo (by simp)) (by omega)
    · exact ih c hch' (fun x hx => hb x (by simpa using Or.inr hx)) g hg

/-- A strictly increasing list of naturals contained in `[s, s + n)` is a
subsequence of `range' s n`. -/
theorem sublist_range'_of_sorted :
    ∀ (cs : List ℕ) (s n : ℕ), List.Pairwise (· < ·) cs →
      (∀ c ∈ cs, s ≤ c ∧ c < s + n) → cs.Sublist (List.range' s n) := by
  intro cs
  induction cs with
  | nil => intro s n _ _; exact List.nil_sublist _
  | cons c cs ih =>
    intro s n hp hb
    rcases List.pairwise_cons.mp hp with ⟨hlt, hp'⟩
    rcases hb c (by simp) with ⟨hsc, hcn⟩
    have hrange : List.range' s n = List.range' s (c - s) ++ c :: List.range' (c + 1) (n - (c - s) - 1) := by
      have h1 := List.range'_append s (c - s) (n - (c - s)) 1
      have e1 : s + 1 * (c - s) = c := by omega
      have e2 : n - (c - s) + (c - s) = n := by omega
      have e3 : n - (c - s) = (n - (c - s) - 1) + 1 := by omega
      rw [e1, e2] at h1
      rw [e3, List.range'_succ] at h1
      exact h1.symm
    rw [hrange]
    have htail : cs.Sublist (List.range' (c + 1) (n - (c - s) - 1)) := by
      apply ih
      · exact hp'
      · intro x hx
        have := hlt x hx
        have := (hb x (by simp [hx])).2
        omega
    exact List.Sublist.append (List.nil_sublist _) (List.cons_sublist_cons.mpr htail)

theorem combinations_eq_nil_of_lt {n : ℕ} {l : List α} (h : l.length < n) :
    combinations n l = [] := by
  have := length_combinations n l
  rw [Nat.choose_eq_zero_of_lt h] at this
  exact List.length_eq_zero.mp this

/-- Soundness of the generator: everything it yields is a valid `nbins`-way
partition of a non-empty base sequence. -/
theorem isNPartition_of_mem_generateBins {base : List α} {nbins : ℕ}
    {p : List (List α)} (hbase : base ≠ []) (hn : 1 ≤ nbins)
    (hp : p ∈ generateBins base nbins) : IsNPartition base nbins p := by
  rcases List.mem_map.mp hp with ⟨cs, hcs, rfl⟩
  rcases mem_combinations.mp hcs with ⟨hsub, hlen⟩
  have hM : 1 ≤ base.length := List.length_pos.mpr hbase
  have hpw : List.Pairwise (· < ·) cs :=
    List.Pairwise.sublist hsub (List.pairwise_lt_range' 1 (base.length - 1))
  have hmem : ∀ c ∈ cs, 1 ≤ c ∧ c < base.length := by
    intro c hc
    have := List.mem_range'_1.mp (hsub.subset hc)
    omega
  have hchain : List.Chain (· < ·) 0 cs := by
    rw [List.chain_iff_pairwise]
    exact List.pairwise_cons.mpr ⟨fun c hc => (hmem c hc).1, hpw⟩
  refine ⟨?_, ?_, ?_⟩
  · rw [length_slicesFrom, hlen]; omega
  · have := flatten_slicesFrom base cs 0 (hchain.imp fun _ _ h => le_of_lt h)
    simpa using this
  · exact ne_nil_of_mem_slicesFrom base cs 0 hchain
      (by
        intro x hx
        rcases List.mem_cons.mp hx with rfl | hx
        · omega
        · exact (hmem x hx).2)

theorem exists_cuts {base : List α} :
    ∀ (p : List (List α)) (lo : ℕ), p ≠ [] → (∀ g ∈ p, g ≠ []) →
      p.flatten = base.drop lo → lo < base.length →
      ∃ cs, slicesFrom base lo cs = p ∧ List.Chain (· < ·) lo cs ∧
        cs.length = p.length - 1 ∧ ∀ c ∈ cs, c < base.length := by
  intro p
  induction p with
  | nil => intro lo h; exact absurd rfl h
  | cons g p' ih =>
    intro lo _ hne hflat hlo
    cases p' with
    | nil =>
      refine ⟨[], ?_, List.Chain.nil, rfl, by simp⟩
      simp only [slicesFrom]
      simp only [List.flatten_cons, List.flatten_nil, List.append_nil] at hflat
      rw [hflat]
    | cons g' p'' =>
      have hg : g ≠ [] := hne g (by simp)
      simp only [List.flatten_cons] at hflat
      have htake : List.take g.length (List.drop lo base) = g := by
        rw [← hflat]; exact List.take_left g _
      have hdrop : (g' :: p'').flatten = List.drop (lo + g.length) base := by
        have := congrArg (List.drop g.length) hflat
        rw [List.drop_left] at this
        rw [List.flatten_cons, this, List.drop_drop, Nat.add_comm]
      have hlt : lo + g.length < base.length := by
        have hne' : (g' :: p'').flatten ≠ [] := by
          simp only [List.flatten_cons, ne_eq, List.append_eq_nil, not_and]
          intro hg'; exact absurd hg' (hne g' (by simp))
        rw [hdrop] at hne'
        by_contra hcon
        exact hne' (List.drop_eq_nil_iff.mpr (by omega))
      rcases ih (lo + g.length) (by simp) (fun h hh => hne h (by simp [hh]))
          hdrop hlt with ⟨cs', hsl, hch, hln, hbd⟩
      refine ⟨(lo + g.length) :: cs', ?_, ?_, ?_, ?_⟩
      · simp only [slicesFrom, hsl, Nat.add_sub_cancel_left]
        rw [htake]
      · exact List.chain_cons.mpr ⟨by
          have := List.length_pos.mpr hg; omega, hch⟩
      · simp [hln]
      · intro c hc
        rcases List.mem_cons.mp hc with rfl | hc
        · exact hlt
        · exact hbd c hc

/-- Completeness of the generator: every valid `nbins`-way partition of a
non-empty sequence is yielded. -/
theorem mem_generateBins_of_isNPartition {base : List α} {nbins : ℕ}
    {p : List (List α)} (hbase : base ≠ [])
    (hp : IsNPartition base nbins p) : p ∈ generateBins base nbins := by
  rcases hp with ⟨hlen, hflat, hne⟩
  have hM : 1 ≤ base.length := List.length_pos.mpr hbase
  have hpne : p ≠ [] := by
    intro h
    rw [h] at hflat
    exact hbase (hflat.symm)
  rcases exists_cuts p 0 hpne hne (by simpa using hflat) (by omega)
    with ⟨cs, hsl, hch, hln, hbd⟩
  have hpw : List.Pairwise (· < ·) (0 :: cs) := (List.chain_iff_pairwise).mp hch
  rcases List.pairwise_cons.mp hpw with ⟨hpos, hpw'⟩
  refine List.mem_map.mpr ⟨cs, mem_combinations.mpr ⟨?_, ?_⟩, hsl⟩
  · apply sublist_range'_of_sorted cs 1 (base.length - 1) hpw'
    intro c hc
    have h1 := hpos c hc
    have h2 := hbd c hc
    omega
  · rw [hln, hlen]

theorem mem_generateBins_iff {base : List α} {nbins : ℕ} {p : List (List α)}
    (hbase : base ≠ []) (hn : 1 ≤ nbins) :
    p ∈ generateBins base nbins ↔ IsNPartition base nbins p :=
  ⟨isNPartition_of_mem_generateBins hbase hn,
   mem_generateBins_of_isNPartition hbase⟩

/-- Model of `np.nanmin` on an integer sequence (for a non-empty list the
minimum; integer input carries no NaN, so `nanmin` is plain `min`). -/
def minI : List ℤ → ℤ
  | [] => 0
  | x :: xs => xs.foldl min x

/-- Model of `np.nanmax` on an integer sequence. -/
def maxI : List ℤ → ℤ
  | [] => 0
  | x :: xs => xs.foldl max x

/-- Model of Python `range(lo, hi + 1)`, the closed integer value range. -/
def rangeList (lo hi : ℤ) : List ℤ :=
  (List.range (hi + 1 - lo).toNat).map (fun i : ℕ => lo + (i : ℤ))

theorem foldl_min_le {α : Type*} [LinearOrder α] (xs : List α) (x : α) :
    xs.foldl min x ≤ x ∧ ∀ y ∈ xs, xs.foldl min x ≤ y := by
  induction xs generalizing x with
  | nil => exact ⟨le_refl _, by simp⟩
  | cons z zs ih =>
    refine ⟨?_, ?_⟩
    · exact le_trans (ih (min x z)).1 (min_le_left _ _)
    · intro y hy
      rcases List.mem_cons.mp hy with rfl | hy
      · exact le_trans (ih (min x y)).1 (min_le_right _ _)
      · exact (ih (min x z)).2 y hy

theorem le_foldl_max {α : Type*} [LinearOrder α] (xs : List α) (x : α) :
    x ≤ xs.foldl max x ∧ ∀ y ∈ xs, y ≤ xs.foldl max x := by
  induction xs generalizing x with
  | nil => exact ⟨le_refl _, by simp⟩
  | cons z zs ih =>
    refine ⟨?_, ?_⟩
    · exact le_trans (le_max_left _ _) (ih (max x z)).1
    · intro y hy
      rcases List.mem_cons.mp hy with rfl | hy
      · exact le_trans (le_max_right _ _) (ih (max x y)).1
      · exact (ih (max x z)).2 y hy

theorem minI_le {a : List ℤ} {x : ℤ} (hx : x ∈ a) : minI a ≤ x := by
  cases a with
  | nil => cases hx
  | cons y ys =>
    rcases List.mem_cons.mp hx with rfl | hx
    · exact (foldl_min_le ys x).1
    · exact (foldl_min_le ys y).2 x hx

theorem le_maxI {a : List ℤ} {x : ℤ} (hx : x ∈ a) : x ≤ maxI a := by
  cases a with
  | nil => cases hx
  | cons y ys =>
    rcases List.mem_cons.mp hx with rfl | hx
    · exact (le_foldl_max ys x).1
    · exact (le_foldl_max ys y).2 x hx

theorem foldl_min_mem {α : Type*} [LinearOrder α] (xs : List α) (x : α) :
    xs.foldl min x = x ∨ xs.foldl min x ∈ xs := by
  induction xs generalizing x with
  | nil => exact Or.inl rfl
  | cons z zs ih =>
    rcases ih (min x z) with h | h
    · rcases min_choice x z with hc | hc
      · exact Or.inl (by rw [List.foldl_cons, h, hc])
      · exact Or.inr (by rw [List.foldl_cons, h, hc]; simp)
    · exact Or.inr (by simp [h])

theorem foldl_max_mem {α : Type*} [LinearOrder α] (xs : List α) (x : α) :
    xs.foldl max x = x ∨ xs.foldl max x ∈ xs := by
  induction xs generalizing x with
  | nil => exact Or.inl rfl
  | cons z zs ih =>
    rcases ih (max x z) with h | h
    · rcases max_choice x z with hc | hc
      · exact Or.inl (by rw [List.foldl_cons, h, hc])
      · exact Or.inr (by rw [List.foldl_cons, h, hc]; simp)
    · exact Or.inr (by simp [h])

theorem minI_mem {a : List ℤ} (ha : a ≠ []) : minI a ∈ a := by
  cases a with
  | nil => exact absurd rfl ha
  | cons y ys =>
    rcases foldl_min_mem ys y with h | h
    · simp [minI, h]
    · simp [minI, List.mem_cons, Or.inr h]

theorem maxI_mem {a : List ℤ} (ha : a ≠ []) : maxI a ∈ a := by
  cases a with
  | nil => exact absurd rfl ha
  | cons y ys =>
    rcases foldl_max_mem ys y with h | h
    · simp [maxI, h]
    · simp [maxI, List.mem_cons, Or.inr h]

theorem mem_rangeList_iff {lo hi x : ℤ} :
    x ∈ rangeList lo hi ↔ lo ≤ x ∧ x ≤ hi := by
  unfold rangeList
  rw [List.mem_map]
  constructor
  · rintro ⟨i, hi', hx⟩
    rw [List.mem_range] at hi'
    have hx' : lo + (i : ℤ) = x := hx
    omega
  · rintro ⟨h1, h2⟩
    refine ⟨(x - lo).toNat, ?_, ?_⟩
    · rw [List.mem_range]; omega
    · show lo + ((x - lo).toNat : ℤ) = x
      omega

theorem rangeList_ne_nil {lo hi : ℤ} (h : lo ≤ hi) : rangeList lo hi ≠ [] := by
  intro hc
  have : lo ∈ rangeList lo hi := mem_rangeList_iff.mpr ⟨le_refl _, h⟩
  rw [hc] at this
  cases this

theorem rangeList_nodup (lo hi : ℤ) : (rangeList lo hi).Nodup := by
  unfold rangeList
  refine List.Nodup.map ?_ (List.nodup_range _)
  intro i j hij
  have h' : lo + (i : ℤ) = lo + (j : ℤ) := hij
  omega

/-- Bin index assigned to a value by `_apply_binning`: the loop writes bin
index `ii` over `b[a == v]` for every `v` in bin `ii`, so a later bin
overwrites an earlier one and the assigned index is that of the last bin
containing the value; a value in no bin keeps the NaN marker (`none`). -/
def binIndexLast (p : List (List ℤ)) (x : ℤ) : Option ℕ :=
  match p with
  | [] => none
  | g :: gs =>
    match binIndexLast gs x with
    | some i => some (i + 1)
    | none => if x ∈ g then some 0 else none

/-- Model of `_apply_binning(a, binning)`; `none` is the NaN marker. -/
def applyBinning (a : List ℤ) (p : List (List ℤ)) : List (Option ℕ) :=
  a.map (binIndexLast p)

/-- Model of `b[~np.isnan(b)]`: the realized (non-missing) bin indices. -/
def realized (b : List (Option ℕ)) : List ℕ :=
  b.filterMap id

/-- Highest index occurring in a binned sequence (`np.bincount` counts up to
this index; an empty sequence gives 0, matching `bincount`'s empty result in
effect). -/
def maxIdx (b : List ℕ) : ℕ := b.foldr max 0

/-- The floating-point entropy of `_get_h` is NaN exactly when some bin index
strictly below the top realized index has zero count: `np.bincount` then
contains a zero, `pdf * np.log2(pdf)` produces `0 * -inf = NaN`, and
`np.ma.filled` is a no-op on the plain (unmasked) ndarray, so the NaN
propagates through the sum. -/
def scoreIsNaN (r : List ℕ) : Bool :=
  (List.range (maxIdx r)).any (fun i => r.count i == 0)

/-- Exact integer surrogate for the (non-NaN) entropy of `_get_h` on a binned
sequence `r` of fixed length `N`: `H(r) = log2 N - log2 (weight r) / N`, so
comparisons of entropies at equal `N` are exactly reversed comparisons of
weights.  All floating-point arithmetic is modelled as exact real
arithmetic. -/
def weight (r : List ℕ) : ℕ :=
  ((List.range (maxIdx r + 1)).map (fun i => r.count i ^ r.count i)).prod

/-- The real-valued Shannon entropy (base 2) computed by `_get_h` when no NaN
arises: missing entries are dropped, counts are taken per realized bin index,
and `-sum p_i * log2 p_i` is formed (in Lean `Real.logb 2 0 = 0`, so
zero-count terms vanish, matching the intended `0 * log2 0 = 0`). -/
noncomputable def getH (b : List (Option ℕ)) : ℝ :=
  -(((List.range (maxIdx (realized b) + 1)).map
      (fun i => ((realized b).count i / ((realized b).length : ℝ)) *
        Real.logb 2 ((realized b).count i / ((realized b).length : ℝ)))).sum)

/-- Boolean NaN flag of `_get_h` on a raw binned sequence. -/
def getHisNaN (b : List (Option ℕ)) : Bool :=
  scoreIsNaN (realized b)

/-- One iteration of the search loop of `bin_sequence`: skip NaN scores
(`NaN > best_h` is false), otherwise update on a strictly better score
(strictly smaller weight). -/
def searchStep (a : List ℤ) (st : ℕ × Option (List (List ℤ)))
    (p : List (List ℤ)) : ℕ × Option (List (List ℤ)) :=
  if scoreIsNaN (realized (applyBinning a p)) then st
  else if weight (realized (applyBinning a p)) < st.1 then
    (weight (realized (applyBinning a p)), some p)
  else st

/-- The whole search loop of `bin_sequence`: fold `searchStep` over all
generated binnings, starting from best score `0.0` (weight `N ^ N`) and no
`best_binning` assigned. -/
def searchFold (a : List ℤ) (nbins : ℕ) : ℕ × Option (List (List ℤ)) :=
  (generateBins (rangeList (minI a) (maxI a)) nbins).foldl (searchStep a)
    (a.length ^ a.length, none)

/-- Model of `bin_sequence(a, nbins)`.  The running best is tracked through
the weight surrogate: the float comparison `h > best_h` (with `best_h`
initialized to `0.0`, the entropy of the one-bin binning, i.e. weight
`N ^ N`) holds exactly when `weight < best weight`, and a NaN score always
compares false.  If no candidate ever wins, the Python code raises
`UnboundLocalError` on reading `best_binning`. -/
def binSequence (a : List ℤ) (nbins : ℕ) : Except Err (List (Option ℕ)) :=
  match a with
  | [] => .error .emptyInput
  | _ :: _ =>
    match (searchFold a nbins).2 with
    | none => .error .uninitializedBest
    | some p => .ok (applyBinning a p)

theorem maxIdx_replicate_zero (n : ℕ) : maxIdx (List.replicate n 0) = 0 := by
  induction n with
  | zero => rfl
  | succ n ih => simp [maxIdx, List.replicate_succ, List.foldr_cons] at ih ⊢; exact ih

theorem scoreIsNaN_replicate_zero (n : ℕ) :
    scoreIsNaN (List.replicate n 0) = false := by
  simp [scoreIsNaN, maxIdx_replicate_zero]

theorem weight_replicate_zero (n : ℕ) :
    weight (List.replicate n 0) = n ^ n := by
  simp [weight, maxIdx_replicate_zero, List.range_succ, List.count_replicate]

theorem realized_replicate_some (n : ℕ) (k : ℕ) :
    realized (List.replicate n (some k)) = List.replicate n k := by
  induction n with
  | zero => rfl
  | succ n ih => simp [realized, List.replicate_succ, ih]

theorem mem_valueRange {a : List ℤ} {x : ℤ} (hx : x ∈ a) :
    x ∈ rangeList (minI a) (maxI a) :=
  mem_rangeList_iff.mpr ⟨minI_le hx, le_maxI hx⟩

theorem applyBinning_whole {a : List ℤ} :
    applyBinning a [rangeList (minI a) (maxI a)] =
      List.replicate a.length (some 0) := by
  unfold applyBinning
  rw [show (List.replicate a.length (some 0) : List (Option ℕ)) =
      a.map (fun _ => some 0) from (List.map_const' a (some 0)).symm]
  apply List.map_congr_left
  intro x hx
  simp [binIndexLast, mem_valueRange hx]

/-- With `nbins = 1` the single whole-range binning scores entropy `0.0`,
`0.0 > 0.0` fails, `best_binning` is never assigned, and the final read of
`best_binning` raises `UnboundLocalError`. -/
theorem binSequence_one_uninitialized {a : List ℤ} (ha : a ≠ []) :
    binSequence a 1 = .error .uninitializedBest := by
  have hfold : searchFold a 1 = (a.length ^ a.length, none) := by
    unfold searchFold
    have hgen : generateBins (rangeList (minI a) (maxI a)) 1 =
        [[rangeList (minI a) (maxI a)]] := by
      simp [generateBins, combinations, slicesFrom]
    rw [hgen, List.foldl_cons, List.foldl_nil]
    unfold searchStep
    rw [applyBinning_whole, realized_replicate_some,
      scoreIsNaN_replicate_zero, weight_replicate_zero]
    simp
  cases a with
  | nil => exact absurd rfl ha
  | cons x xs =>
    unfold binSequence
    rw [hfold]

/-- C2: with `a = [0, 1]` and `nbins = 3` the Partition Generator yields no
partitions (no way to cut 2 values into 3 non-empty groups), and
`bin_sequence` then fails by referencing the never-assigned `best_binning`
(`UnboundLocalError`), not with a `ParameterError`: the exact path performs no
parameter validation of `nbins` at all. -/
theorem C2_exact_no_partition_crash :
    generateBins (rangeList (minI [0, 1]) (maxI [0, 1])) 3 = [] ∧
    binSequence [0, 1] 3 = Except.error Err.uninitializedBest :=
  ⟨rfl, rfl⟩

/-- C3: `bin_sequence(a, 1)` never returns the all-zeros sequence.  For every
non-empty input the single whole-range candidate scores entropy `0.0`, the
strict comparison `0.0 > 0.0` fails, `best_binning` stays unassigned, and the
final read of it raises `UnboundLocalError`. -/
theorem C3_nbins_one_crash {a : List ℤ} (ha : a ≠ []) :
    binSequence a 1 = Except.error Err.uninitializedBest :=
  binSequence_one_uninitialized ha

theorem C3_nbins_one_crash_witness :
    binSequence [5, 5, 5] 1 = Except.error Err.uninitializedBest :=
  C3_nbins_one_crash (by simp)

/-- C4: the Entropy Scorer `_get_h` yields NaN, not a 0 contribution, whenever
a bin index strictly below the top realized index has zero count
(`np.ma.filled` is a no-op on the plain unmasked array `pdf * np.log2(pdf)`);
on the binned sequence `[0, 2]` the claimed value would be `1.0` but the code
produces NaN.  Zero-gap inputs are scored without NaN, and the all-one-bin
sequence does get entropy `0.0` as claimed. -/
theorem C4_scorer_nan_on_zero_count :
    getHisNaN [some 0, some 2] = true ∧
    getHisNaN [some 0, some 0, some 1] = false ∧
    getH [some 0, some 0] = 0 := by
  refine ⟨rfl, rfl, ?_⟩
  have key : getH [some 0, some 0] =
      -((((2 : ℕ) : ℝ) / ((2 : ℕ) : ℝ)) *
        Real.logb 2 (((2 : ℕ) : ℝ) / ((2 : ℕ) : ℝ)) + 0) := rfl
  rw [key]
  norm_num [Real.logb_one]

/-- C5 fails on the empty sequence: with `M = 0` and `nbins = 1 > M` the
generator still yields exactly one partition, whose single group is empty
(`combinations(range(1, 0), 0)` yields one empty cut tuple and the single
slice `base[0:0]` is empty), contradicting both the `nbins > M implies no
partitions` clause and the non-emptiness clause. -/
theorem C5_generator_empty_counterexample :
    generateBins ([] : List ℤ) 1 = [[[]]] ∧
    ¬ (∀ p ∈ generateBins ([] : List ℤ) 1, ∀ g ∈ p, g ≠ []) := by
  have h1 : generateBins ([] : List ℤ) 1 = [[[]]] := rfl
  refine ⟨h1, fun h => ?_⟩
  have := h [[]] (by rw [h1]; exact List.mem_singleton.mpr rfl) []
    (List.mem_singleton.mpr rfl)
  exact this rfl

/-- C5 for non-empty sequences (`M ≥ 1`) and positive `nbins`: the generator
yields exactly `C(M-1, nbins-1)` partitions, each a list of exactly `nbins`
non-empty groups concatenating, in order, to the input; with `nbins = 1` it
yields exactly the whole-range partition, and with `nbins > M` it yields
nothing. -/
theorem C5_generator_amended (base : List ℤ) (nbins : ℕ) (hbase : base ≠ [])
    (hn : 1 ≤ nbins) :
    (generateBins base nbins).length = (base.length - 1).choose (nbins - 1) ∧
    (∀ p ∈ generateBins base nbins, IsNPartition base nbins p) ∧
    (nbins = 1 → generateBins base nbins = [[base]]) ∧
    (base.length < nbins → generateBins base nbins = []) := by
  refine ⟨?_, ?_, ?_, ?_⟩
  · rw [generateBins, List.length_map, length_combinations, List.length_range']
  · exact fun p hp => isNPartition_of_mem_generateBins hbase hn hp
  · rintro rfl
    simp [generateBins, combinations, slicesFrom]
  · intro h
    have hM : 1 ≤ base.length := List.length_pos.mpr hbase
    have hlt : (List.range' 1 (base.length - 1)).length < nbins - 1 := by
      rw [List.length_range']
      omega
    rw [generateBins, combinations_eq_nil_of_lt hlt, List.map_nil]

theorem C5_generator_amended_witness :
    (generateBins ([0, 1, 2] : List ℤ) 2).length = (2 : ℕ).choose 1 ∧
    (∀ p ∈ generateBins ([0, 1, 2] : List ℤ) 2, IsNPartition [0, 1, 2] 2 p) ∧
    (2 = 1 → generateBins ([0, 1, 2] : List ℤ) 2 = [[[0, 1, 2]]]) ∧
    (([0, 1, 2] : List ℤ).length < 2 → generateBins ([0, 1, 2] : List ℤ) 2 = []) :=
  C5_generator_amended [0, 1, 2] 2 (by simp) (by norm_num)

/-- Model of the power-of-two assertion `_isinteger(np.log2(nbins))` of
`bin_sequence_approximately` (float `log2` modelled as exact): `nbins` passes
iff it is `2 ^ k` for some `k ≥ 0`, so `nbins = 1` passes. -/
def pow2Check (n : ℕ) : Bool :=
  (List.range (n + 1)).any (fun k => n == 2 ^ k)

theorem pow2Check_iff {n : ℕ} : pow2Check n = true ↔ ∃ k, n = 2 ^ k := by
  unfold pow2Check
  rw [List.any_eq_true]
  constructor
  · rintro ⟨k, _, hk⟩
    exact ⟨k, by simpa using hk⟩
  · rintro ⟨k, rfl⟩
    refine ⟨k, List.mem_range.mpr ?_, by simp⟩
    have := Nat.lt_two_pow k
    omega

/-- Twice the value of `np.median` on an integer sequence: sort, then add the
two middle entries (for odd length both indices coincide).  The median itself
is `medianTwice a / 2` (a half-integer); comparing a value `x` against the
median is equivalent to comparing `2 * x` against `medianTwice a`, which keeps
the whole computation in exact integers. -/
def medianTwice (a : List ℤ) : ℤ :=
  let s := List.insertionSort (· ≤ ·) a
  s.getD ((a.length - 1) / 2) 0 + s.getD (a.length / 2) 0

/-- The two Boolean masks `is_smaller` / `is_larger` of
`bin_sequence_approximately` after the median-tie reassignment: elements
strictly below / above the median pivot (comparisons scaled by 2 to stay
integral), with the elements equal to the pivot OR-ed (`+=` on a bool array)
onto whichever mask has the smaller count, ties going to `is_larger`. -/
def sideMasks (a : List ℤ) : List Bool × List Bool :=
  let piv2 := medianTwice a
  let isSm := a.map (fun x => decide (2 * x < piv2))
  let isLg := a.map (fun x => decide (piv2 < 2 * x))
  let isEq := a.map (fun x => decide (2 * x = piv2))
  if isSm.count true < isLg.count true then (List.zipWith or isSm isEq, isLg)
  else (isSm, List.zipWith or isLg isEq)

/-- Boolean-mask indexing `l[mask]` (positions where the mask is true, in
order). -/
def maskFilter (mask : List Bool) (l : List α) : List α :=
  (l.zip mask).filterMap (fun p => if p.2 then some p.1 else none)

/-- Boolean-mask assignment `b[mask] = vals`: walk `b` and `mask` together,
replacing masked positions by successive values of `vals` (callers always
supply exactly `mask.count true` values). -/
def scatter : List Bool → List ℕ → List ℕ → List ℕ
  | _, _, [] => []
  | [], _, b => b
  | true :: ms, v :: vs, _ :: xs => v :: scatter ms vs xs
  | true :: ms, [], x :: xs => x :: scatter ms [] xs
  | false :: ms, vs, x :: xs => x :: scatter ms vs xs

/-- Model of `np.max`: raises `ValueError` (here `none`) on an empty array. -/
def maxOfList (l : List ℕ) : Option ℕ :=
  match l with
  | [] => none
  | x :: xs => some (xs.foldl max x)

/-- One half of the recursive step of `bin_sequence_approximately`: recurse
when the side has more than one element and more than one bin remains,
otherwise label everything `0`. -/
def halfStep (rec : List ℤ → ℕ → Except Err (List ℕ)) (aSide : List ℤ)
    (nbins : ℕ) : Except Err (List ℕ) :=
  if 1 < aSide.length ∧ 1 < nbins / 2 then rec aSide (nbins / 2)
  else .ok (List.replicate aSide.length 0)

/-- The joining step of `bin_sequence_approximately`: `b[is_smaller] =
smaller; b[is_larger] = larger + np.max(smaller) + 1`, with `np.max` raising
on an empty `smaller`.  Errors of the recursive calls propagate, the smaller
side first (the Python executes it first). -/
def combineHalves (a : List ℤ) (ms ml : List Bool)
    (smallerE largerE : Except Err (List ℕ)) : Except Err (List ℕ) :=
  match smallerE, largerE with
  | .ok smaller, .ok larger =>
    (match maxOfList smaller with
     | none => .error .emptyMax
     | some mx =>
       .ok (scatter ml (larger.map (fun v => v + (mx + 1)))
             (scatter ms smaller (List.replicate a.length 0))))
  | .error e, _ => .error e
  | .ok _, .error e => .error e

/-- Fuel-indexed model of `bin_sequence_approximately` (structural recursion
so that closed calls evaluate; `fuel = nbins` always suffices since the bin
budget halves on recursion, and fuel exhaustion coincides with the `nbins = 0`
assertion failure). -/
def binSeqApproxFuel : ℕ → List ℤ → ℕ → Except Err (List ℕ)
  | 0, _, _ => .error .badNbins
  | fuel + 1, a, nbins =>
    if pow2Check nbins = true then
      combineHalves a (sideMasks a).1 (sideMasks a).2
        (halfStep (binSeqApproxFuel fuel) (maskFilter (sideMasks a).1 a) nbins)
        (halfStep (binSeqApproxFuel fuel) (maskFilter (sideMasks a).2 a) nbins)
    else .error .badNbins

theorem halfStep_congr {rec1 rec2 : List ℤ → ℕ → Except Err (List ℕ)}
    {aSide : List ℤ} {nbins : ℕ}
    (h : 1 < nbins / 2 → rec1 aSide (nbins / 2) = rec2 aSide (nbins / 2)) :
    halfStep rec1 aSide nbins = halfStep rec2 aSide nbins := by
  unfold halfStep
  split_ifs with hc
  · exact h hc.2
  · rfl

theorem binSeqApproxFuel_zero (fuel : ℕ) (a : List ℤ) :
    binSeqApproxFuel fuel a 0 = .error .badNbins := by
  cases fuel with
  | zero => rfl
  | succ f =>
    have : pow2Check 0 = false := rfl
    simp [binSeqApproxFuel, this]

theorem binSeqApproxFuel_irrel :
    ∀ (nbins fuel fuel' : ℕ) (a : List ℤ), nbins ≤ fuel → nbins ≤ fuel' →
      binSeqApproxFuel fuel a nbins = binSeqApproxFuel fuel' a nbins := by
  intro nbins
  induction nbins using Nat.strong_induction_on with
  | _ nbins ih =>
    intro fuel fuel' a hf hf'
    cases nbins with
    | zero => rw [binSeqApproxFuel_zero, binSeqApproxFuel_zero]
    | succ n =>
      cases fuel with
      | zero => omega
      | succ f =>
        cases fuel' with
        | zero => omega
        | succ f' =>
          show (if pow2Check (n + 1) = true then _ else _) =
            (if pow2Check (n + 1) = true then _ else _)
          split_ifs with hpow
          · have hrec : ∀ aSide : List ℤ,
                halfStep (binSeqApproxFuel f) aSide (n + 1) =
                  halfStep (binSeqApproxFuel f') aSide (n + 1) := by
              intro aSide
              apply halfStep_congr
              intro hlt
              exact ih ((n + 1) / 2) (by omega) f f' aSide (by omega) (by omega)
            rw [hrec, hrec]
          · rfl

/-- Model of `bin_sequence_approximately(a, nbins)`. -/
def binSeqApprox (a : List ℤ) (nbins : ℕ) : Except Err (List ℕ) :=
  binSeqApproxFuel nbins a nbins

/-- The `smaller` array of one step of `bin_sequence_approximately` (the
recursive result on `a[is_smaller]`, or all zeros at the recursion floor). -/
def approxSmaller (a : List ℤ) (nbins : ℕ) : Except Err (List ℕ) :=
  halfStep binSeqApprox (maskFilter (sideMasks a).1 a) nbins

/-- The `larger` array of one step of `bin_sequence_approximately` (before the
offset is added). -/
def approxLarger (a : List ℤ) (nbins : ℕ) : Except Err (List ℕ) :=
  halfStep binSeqApprox (maskFilter (sideMasks a).2 a) nbins

/-- Unfolding equation of `binSeqApprox` in terms of one recursive step of the
Python function. -/
theorem binSeqApprox_eq (a : List ℤ) (nbins : ℕ) :
    binSeqApprox a nbins =
      if pow2Check nbins = true then
        combineHalves a (sideMasks a).1 (sideMasks a).2
          (approxSmaller a nbins) (approxLarger a nbins)
      else .error .badNbins := by
  cases nbins with
  | zero =>
    rw [show binSeqApprox a 0 = binSeqApproxFuel 0 a 0 from rfl, binSeqApproxFuel_zero]
    have : pow2Check 0 = false := rfl
    rw [this]
    simp
  | succ n =>
    show (if pow2Check (n + 1) = true then _ else _) = _
    split_ifs with hpow
    · have hrec : ∀ aSide : List ℤ,
          halfStep (binSeqApproxFuel n) aSide (n + 1) =
            halfStep binSeqApprox aSide (n + 1) := by
        intro aSide
        apply halfStep_congr
        intro hlt
        exact binSeqApproxFuel_irrel ((n + 1) / 2) n ((n + 1) / 2) aSide
          (by omega) (by omega)
      rw [hrec, hrec]
      rfl
    · rfl

theorem pow2_div_two {nbins : ℕ} (hpow : ∃ k, nbins = 2 ^ k)
    (hgt : 1 < nbins / 2) : (∃ j, nbins / 2 = 2 ^ j) ∧ nbins / 2 < nbins := by
  rcases hpow with ⟨k, rfl⟩
  cases k with
  | zero => norm_num at hgt
  | succ j =>
    have h2 : (2 : ℕ) ^ (j + 1) / 2 = 2 ^ j := by
      rw [pow_succ, Nat.mul_div_cancel _ (by norm_num)]
    refine ⟨⟨j, h2⟩, ?_⟩
    rw [h2, pow_succ]
    have := Nat.pos_pow_of_pos j (show 0 < 2 by norm_num)
    omega

/-- A call whose `nbins` is a power of two never produces the power-of-two
assertion failure: the check passes at the top, and every recursive `nbins/2`
is again a power of two. -/
theorem binSeqApprox_ne_badNbins :
    ∀ (nbins : ℕ), (∃ k, nbins = 2 ^ k) → ∀ (a : List ℤ),
      binSeqApprox a nbins ≠ .error .badNbins := by
  intro nbins
  induction nbins using Nat.strong_induction_on with
  | _ nbins ih =>
    intro hpow a
    rw [binSeqApprox_eq, if_pos (pow2Check_iff.mpr hpow)]
    have hhalf : ∀ aSide : List ℤ,
        halfStep binSeqApprox aSide nbins ≠ .error .badNbins := by
      intro aSide
      unfold halfStep
      split_ifs with hc
      · rcases pow2_div_two hpow hc.2 with ⟨hp2, hlt⟩
        exact ih (nbins / 2) hlt hp2 aSide
      · simp
    unfold combineHalves
    cases hs : approxSmaller a nbins with
    | error e =>
      have : e ≠ .badNbins := by
        intro hbad
        exact hhalf (maskFilter (sideMasks a).1 a) (by rw [← hbad, ← hs]; rfl)
      simpa using this
    | ok smaller =>
      cases hl : approxLarger a nbins with
      | error e =>
        have : e ≠ .badNbins := by
          intro hbad
          exact hhalf (maskFilter (sideMasks a).2 a) (by rw [← hbad, ← hl]; rfl)
        simpa using this
      | ok larger =>
        rcases hmx : maxOfList smaller with _ | mx <;> simp [hmx]

/-- C7 counterexample: `nbins = 1` passes the assertion
(`np.log2(1) = 0` is integral) and the function returns a result instead of
failing; the claim says every `nbins` outside `{2, 4, 8, ...}` must fail. -/
theorem C7_nbins_one_accepted_counterexample :
    binSeqApprox [0, 1] 1 = Except.ok [0, 1] := by rfl

/-- C7 amended: the power-of-two assertion of `bin_sequence_approximately`
fails exactly when `nbins` is not of the form `2 ^ k` with `k ≥ 0`; so
`nbins = 3` fails as claimed, but `nbins = 1 = 2 ^ 0` is accepted (the search
then runs, both halves bottom out immediately and up to two bins are
produced), and the search is performed for every power of two. -/
theorem C7_power_check_amended (a : List ℤ) (nbins : ℕ) :
    binSeqApprox a nbins = .error .badNbins ↔ ¬ ∃ k : ℕ, nbins = 2 ^ k := by
  constructor
  · intro hbad hpow
    exact binSeqApprox_ne_badNbins nbins hpow a hbad
  · intro hnp
    rw [binSeqApprox_eq, if_neg]
    intro hc
    exact hnp (pow2Check_iff.mp hc)

theorem count_true_map (a : List α) (f : α → Bool) :
    (a.map f).count true = a.countP f := by
  induction a with
  | nil => rfl
  | cons x xs ih =>
    simp only [List.map_cons, List.count_cons, List.countP_cons, ih]
    cases h : f x <;> simp [h]

theorem sideMasks_length (a : List ℤ) :
    (sideMasks a).1.length = a.length ∧ (sideMasks a).2.length = a.length := by
  unfold sideMasks
  dsimp only
  split_ifs <;> simp [List.length_zipWith]

theorem sideMasks_fst_getElem (a : List ℤ) (i : ℕ) (hi : i < a.length) :
    (sideMasks a).1.getD i false =
      (decide (2 * a[i] < medianTwice a) ||
        (decide (2 * a[i] = medianTwice a) &&
          decide ((a.countP fun x => decide (2 * x < medianTwice a)) <
            (a.countP fun x => decide (medianTwice a < 2 * x))))) := by
  have hl := (sideMasks_length a).1
  rw [List.getD_eq_getElem _ _ (by omega)]
  unfold sideMasks
  simp only [← count_true_map a (fun x => decide (2 * x < medianTwice a)),
    ← count_true_map a (fun x => decide (medianTwice a < 2 * x))]
  split_ifs with hcond
  · simp [List.getElem_zipWith, List.getElem_map, hcond]
  · simp [List.getElem_map, hcond]

theorem sideMasks_snd_getElem (a : List ℤ) (i : ℕ) (hi : i < a.length) :
    (sideMasks a).2.getD i false =
      (decide (medianTwice a < 2 * a[i]) ||
        (decide (2 * a[i] = medianTwice a) &&
          decide (¬ (a.countP fun x => decide (2 * x < medianTwice a)) <
            (a.countP fun x => decide (medianTwice a < 2 * x))))) := by
  have hl := (sideMasks_length a).2
  rw [List.getD_eq_getElem _ _ (by omega)]
  unfold sideMasks
  simp only [← count_true_map a (fun x => decide (2 * x < medianTwice a)),
    ← count_true_map a (fun x => decide (medianTwice a < 2 * x))]
  split_ifs with hcond
  · simp [List.getElem_map, hcond]
  · simp [List.getElem_zipWith, List.getElem_map, hcond]

/-- C8: in a recursive step, every element equal to the median pivot is
assigned to the `is_smaller` mask exactly when `is_smaller` has strictly fewer
members than `is_larger` before the assignment, and to the `is_larger` mask
otherwise (including ties). -/
theorem C8_median_tie_assignment (a : List ℤ) (i : ℕ) (hi : i < a.length)
    (heq : 2 * a.getD i 0 = medianTwice a) :
    (((a.countP fun x => decide (2 * x < medianTwice a)) <
        (a.countP fun x => decide (medianTwice a < 2 * x))) →
      (sideMasks a).1.getD i false = true ∧ (sideMasks a).2.getD i false = false) ∧
    ((¬ ((a.countP fun x => decide (2 * x < medianTwice a)) <
        (a.countP fun x => decide (medianTwice a < 2 * x)))) →
      (sideMasks a).1.getD i false = false ∧ (sideMasks a).2.getD i false = true) := by
  rw [List.getD_eq_getElem _ _ hi] at heq
  rw [sideMasks_fst_getElem a i hi, sideMasks_snd_getElem a i hi]
  constructor
  · intro hcond
    constructor
    · simp [heq, hcond]
    · simp [heq, hcond]
  · intro hcond
    constructor
    · simp [heq, hcond]
    · simp [heq, hcond]

theorem C8_median_tie_assignment_witness :
    (((([0, 1, 1] : List ℤ).countP fun x => decide (2 * x < medianTwice [0, 1, 1])) <
        (([0, 1, 1] : List ℤ).countP fun x => decide (medianTwice [0, 1, 1] < 2 * x))) →
      (sideMasks [0, 1, 1]).1.getD 1 false = true ∧
        (sideMasks [0, 1, 1]).2.getD 1 false = false) ∧
    ((¬ ((([0, 1, 1] : List ℤ).countP fun x => decide (2 * x < medianTwice [0, 1, 1])) <
        (([0, 1, 1] : List ℤ).countP fun x => decide (medianTwice [0, 1, 1] < 2 * x)))) →
      (sideMasks [0, 1, 1]).1.getD 1 false = false ∧
        (sideMasks [0, 1, 1]).2.getD 1 false = true) :=
  C8_median_tie_assignment [0, 1, 1] 1 (by norm_num) (by decide)

theorem maskFilter_nil_left (l : List α) : maskFilter [] l = [] := by
  cases l <;> rfl

theorem maskFilter_cons (m : Bool) (ms : List Bool) (x : α) (xs : List α) :
    maskFilter (m :: ms) (x :: xs) =
      if m then x :: maskFilter ms xs else maskFilter ms xs := by
  cases m <;> simp [maskFilter]

theorem length_scatter (mask : List Bool) (vals b : List ℕ) :
    (scatter mask vals b).length = b.length := by
  induction mask generalizing vals b with
  | nil => cases b <;> simp [scatter]
  | cons m ms ih =>
    cases b with
    | nil => simp [scatter]
    | cons x xs =>
      cases m with
      | true =>
        cases vals with
        | nil => simp [scatter, ih]
        | cons v vs => simp [scatter, ih]
      | false => simp [scatter, ih]

theorem getD_scatter (d : ℕ) :
    ∀ (mask : List Bool) (vals b : List ℕ) (i : ℕ),
      mask.length = b.length → vals.length = mask.count true → i < b.length →
      (scatter mask vals b).getD i d =
        if mask.getD i false = true then vals.getD ((mask.take i).count true) d
        else b.getD i d := by
  intro mask
  induction mask with
  | nil =>
    intro vals b i hm _ hi
    rw [← hm] at hi
    cases hi
  | cons m ms ih =>
    intro vals b i hm hv hi
    cases b with
    | nil => cases hi
    | cons x xs =>
      cases m with
      | true =>
        cases vals with
        | nil => simp [List.count_cons] at hv
        | cons v vs =>
          cases i with
          | zero => simp [scatter]
          | succ i =>
            have hrec := ih vs xs i (by simpa using hm)
              (by simpa [List.count_cons] using hv) (by simpa using hi)
            have e1 : scatter (true :: ms) (v :: vs) (x :: xs) =
                v :: scatter ms vs xs := by simp [scatter]
            rw [e1, List.getD_cons_succ, List.getD_cons_succ, List.take_succ_cons]
            rw [show List.count true (true :: List.take i ms) =
                List.count true (List.take i ms) + 1 from by simp [List.count_cons]]
            rw [List.getD_cons_succ]
            exact hrec
      | false =>
        cases i with
        | zero => simp [scatter]
        | succ i =>
          have hrec := ih vals xs i (by simpa using hm)
            (by simpa [List.count_cons] using hv) (by simpa using hi)
          have e1 : scatter (false :: ms) vals (x :: xs) =
              x :: scatter ms vals xs := by simp [scatter]
          rw [e1, List.getD_cons_succ, List.getD_cons_succ, List.take_succ_cons]
          rw [show List.count true (false :: List.take i ms) =
              List.count true (List.take i ms) from by simp [List.count_cons]]
          exact hrec

theorem length_maskFilter :
    ∀ (mask : List Bool) (l : List α), mask.length = l.length →
      (maskFilter mask l).length = mask.count true := by
  intro mask
  induction mask with
  | nil =>
    intro l h
    rw [maskFilter_nil_left]
    rfl
  | cons m ms ih =>
    intro l h
    cases l with
    | nil => cases h
    | cons x xs =>
      rw [maskFilter_cons]
      cases m with
      | true => simp [List.count_cons, ih xs (by simpa using h)]
      | false => simp [List.count_cons, ih xs (by simpa using h)]

theorem getD_maskFilter (d : α) :
    ∀ (mask : List Bool) (l : List α) (i : ℕ),
      mask.length = l.length → i < l.length → mask.getD i false = true →
      (maskFilter mask l).getD ((mask.take i).count true) d = l.getD i d := by
  intro mask
  induction mask with
  | nil =>
    intro l i hm hi
    rw [← hm] at hi
    cases hi
  | cons m ms ih =>
    intro l i hm hi hmask
    cases l with
    | nil => cases hi
    | cons x xs =>
      cases m with
      | true =>
        cases i with
        | zero => simp [maskFilter_cons]
        | succ i =>
          have hrec := ih xs i (by simpa using hm) (by simpa using hi)
            (by simpa using hmask)
          have e1 : maskFilter (true :: ms) (x :: xs) = x :: maskFilter ms xs := by
            rw [maskFilter_cons]; simp
          rw [e1, List.take_succ_cons]
          rw [show List.count true (true :: List.take i ms) =
              List.count true (List.take i ms) + 1 from by simp [List.count_cons]]
          rw [List.getD_cons_succ, List.getD_cons_succ]
          exact hrec
      | false =>
        cases i with
        | zero => simp at hmask
        | succ i =>
          have hrec := ih xs i (by simpa using hm) (by simpa using hi)
            (by simpa using hmask)
          have e1 : maskFilter (false :: ms) (x :: xs) = maskFilter ms xs := by
            rw [maskFilter_cons]; simp
          rw [e1, List.take_succ_cons]
          rw [show List.count true (false :: List.take i ms) =
              List.count true (List.take i ms) from by simp [List.count_cons]]
          rw [List.getD_cons_succ]
          exact hrec

theorem count_take_lt :
    ∀ (mask : List Bool) (i : ℕ), i < mask.length → mask.getD i false = true →
      (mask.take i).count true < mask.count true := by
  intro mask
  induction mask with
  | nil => intro i hi; cases hi
  | cons m ms ih =>
    intro i hi hmask
    cases i with
    | zero =>
      simp at hmask
      subst hmask
      simp [List.count_cons]
    | succ i =>
      have hrec := ih i (by simpa using hi) (by simpa using hmask)
      cases m <;> simp [List.count_cons] <;> omega

theorem getD_le_maxOfList {l : List ℕ} {mx : ℕ} (h : maxOfList l = some mx)
    (d i : ℕ) (hi : i < l.length) : l.getD i d ≤ mx := by
  cases l with
  | nil => cases hi
  | cons x xs =>
    have hmx : mx = xs.foldl max x := by
      simpa [maxOfList] using h.symm
    subst hmx
    have hmem : (x :: xs).getD i d ∈ x :: xs := by
      rw [List.getD_eq_getElem _ _ hi]
      exact List.getElem_mem _
    rcases List.mem_cons.mp hmem with he | he
    · rw [he]; exact (le_foldl_max xs x).1
    · exact (le_foldl_max xs x).2 _ he

theorem combineHalves_ok {a : List ℤ} {ms ml : List Bool}
    {sE lE : Except Err (List ℕ)} {b : List ℕ}
    (h : combineHalves a ms ml sE lE = .ok b) :
    ∃ smaller larger mx, sE = .ok smaller ∧ lE = .ok larger ∧
      maxOfList smaller = some mx ∧
      b = scatter ml (larger.map (fun v => v + (mx + 1)))
            (scatter ms smaller (List.replicate a.length 0)) := by
  cases sE with
  | error e => exact absurd h (by simp [combineHalves])
  | ok smaller =>
    cases lE with
    | error e => exact absurd h (by simp [combineHalves])
    | ok larger =>
      unfold combineHalves at h
      dsimp only at h
      rcases hmx : maxOfList smaller with _ | mx
      · rw [hmx] at h
        exact absurd h (by simp)
      · rw [hmx] at h
        simp only [Except.ok.injEq] at h
        exact ⟨smaller, larger, mx, rfl, rfl, hmx, h.symm⟩

theorem binSeqApprox_ok_length {a : List ℤ} {nbins : ℕ} {b : List ℕ}
    (h : binSeqApprox a nbins = .ok b) : b.length = a.length := by
  rw [binSeqApprox_eq] at h
  split_ifs at h with hp
  rcases combineHalves_ok h with ⟨s, l, mx, _, _, _, rfl⟩
  rw [length_scatter, length_scatter, List.length_replicate]

theorem halfStep_ok_length {aSide : List ℤ} {nbins : ℕ} {r : List ℕ}
    (h : halfStep binSeqApprox aSide nbins = .ok r) : r.length = aSide.length := by
  unfold halfStep at h
  split_ifs at h with hc
  · exact binSeqApprox_ok_length h
  · simp only [Except.ok.injEq] at h
    rw [← h, List.length_replicate]

/-- Every position belongs to exactly one of the two side masks. -/
theorem sideMasks_cover (a : List ℤ) (i : ℕ) (hi : i < a.length) :
    ((sideMasks a).1.getD i false = true ∧ (sideMasks a).2.getD i false = false) ∨
    ((sideMasks a).1.getD i false = false ∧ (sideMasks a).2.getD i false = true) := by
  rw [sideMasks_fst_getElem a i hi, sideMasks_snd_getElem a i hi]
  by_cases hc : (a.countP fun x => decide (2 * x < medianTwice a)) <
      (a.countP fun x => decide (medianTwice a < 2 * x))
  · rcases lt_trichotomy (2 * a[i]) (medianTwice a) with h | h | h
    · left
      simp [h, hc, show ¬ medianTwice a < 2 * a[i] by omega,
        show ¬ 2 * a[i] = medianTwice a by omega]
    · left
      simp [h, hc, show ¬ medianTwice a < 2 * a[i] by omega,
        show ¬ 2 * a[i] < medianTwice a by omega]
    · right
      simp [h, hc, show ¬ 2 * a[i] < medianTwice a by omega,
        show ¬ 2 * a[i] = medianTwice a by omega]
  · rcases lt_trichotomy (2 * a[i]) (medianTwice a) with h | h | h
    · left
      simp [h, hc, show ¬ medianTwice a < 2 * a[i] by omega,
        show ¬ 2 * a[i] = medianTwice a by omega]
    · right
      simp [h, hc, show ¬ medianTwice a < 2 * a[i] by omega,
        show ¬ 2 * a[i] < medianTwice a by omega]
    · right
      simp [h, hc, show ¬ 2 * a[i] < medianTwice a by omega,
        show ¬ 2 * a[i] = medianTwice a by omega]

/-- Every value on the `is_smaller` side is strictly below every value on the
`is_larger` side. -/
theorem sideMasks_sep (a : List ℤ) (i j : ℕ) (hi : i < a.length)
    (hj : j < a.length) (hmi : (sideMasks a).1.getD i false = true)
    (hmj : (sideMasks a).2.getD j false = true) : a[i] < a[j] := by
  rw [sideMasks_fst_getElem a i hi] at hmi
  rw [sideMasks_snd_getElem a j hj] at hmj
  simp only [Bool.or_eq_true, Bool.and_eq_true, decide_eq_true_eq] at hmi hmj
  rcases hmi with h1 | ⟨h1, hc⟩ <;> rcases hmj with h2 | ⟨h2, hc'⟩
  · omega
  · omega
  · omega
  · exact absurd hc hc'

theorem getD_map_of_lt (f : ℕ → ℕ) (l : List ℕ) (r : ℕ) (hr : r < l.length) :
    (l.map f).getD r 0 = f (l.getD r 0) := by
  rw [List.getD_eq_getElem _ _ (by simpa using hr), List.getD_eq_getElem _ _ hr,
    List.getElem_map]

theorem smaller_length_eq {a : List ℤ} {nbins : ℕ} {smaller : List ℕ}
    (hs : approxSmaller a nbins = .ok smaller) :
    smaller.length = (sideMasks a).1.count true := by
  have h := halfStep_ok_length (show halfStep binSeqApprox
    (maskFilter (sideMasks a).1 a) nbins = .ok smaller from hs)
  rw [h, length_maskFilter _ _ (sideMasks_length a).1]

theorem larger_length_eq {a : List ℤ} {nbins : ℕ} {larger : List ℕ}
    (hl : approxLarger a nbins = .ok larger) :
    larger.length = (sideMasks a).2.count true := by
  have h := halfStep_ok_length (show halfStep binSeqApprox
    (maskFilter (sideMasks a).2 a) nbins = .ok larger from hl)
  rw [h, length_maskFilter _ _ (sideMasks_length a).2]

/-- Access lemma for the array produced by the joining step
`b[is_smaller] = smaller; b[is_larger] = larger + mx + 1`. -/
theorem approx_step_access (a : List ℤ) (smaller larger : List ℕ) (mx : ℕ)
    (hslen : smaller.length = (sideMasks a).1.count true)
    (hllen : larger.length = (sideMasks a).2.count true) :
    (∀ i, i < a.length → (sideMasks a).1.getD i false = true →
      (scatter (sideMasks a).2 (larger.map (fun v => v + (mx + 1)))
        (scatter (sideMasks a).1 smaller (List.replicate a.length 0))).getD i 0 =
        smaller.getD (((sideMasks a).1.take i).count true) 0) ∧
    (∀ j, j < a.length → (sideMasks a).2.getD j false = true →
      (scatter (sideMasks a).2 (larger.map (fun v => v + (mx + 1)))
        (scatter (sideMasks a).1 smaller (List.replicate a.length 0))).getD j 0 =
        larger.getD (((sideMasks a).2.take j).count true) 0 + (mx + 1)) := by
  have hms : (sideMasks a).1.length = a.length := (sideMasks_length a).1
  have hml : (sideMasks a).2.length = a.length := (sideMasks_length a).2
  have hinner : (scatter (sideMasks a).1 smaller
      (List.replicate a.length 0)).length = a.length := by
    rw [length_scatter, List.length_replicate]
  constructor
  · intro i hi hmsi
    have hmli : (sideMasks a).2.getD i false = false := by
      rcases sideMasks_cover a i hi with ⟨_, h2⟩ | ⟨h1', _⟩
      · exact h2
      · rw [hmsi] at h1'; cases h1'
    rw [getD_scatter 0 _ _ _ i (by omega) (by rw [List.length_map, hllen]) (by omega)]
    rw [hmli]
    simp only [Bool.false_eq_true, if_false]
    rw [getD_scatter 0 _ _ _ i (by rw [List.length_replicate]; omega)
      (by rw [hslen]) (by rw [List.length_replicate]; omega)]
    rw [hmsi]
    simp
  · intro j hj hmlj
    rw [getD_scatter 0 _ _ _ j (by omega) (by rw [List.length_map, hllen]) (by omega)]
    rw [hmlj]
    simp only [if_true]
    have hrank : ((sideMasks a).2.take j).count true < larger.length := by
      rw [hllen]
      exact count_take_lt _ j (by omega) hmlj
    rw [getD_map_of_lt _ _ _ hrank]

theorem binSeqApprox_ok_shape {a : List ℤ} {nbins : ℕ} {b : List ℕ}
    (hok : binSeqApprox a nbins = .ok b) :
    pow2Check nbins = true ∧ ∃ smaller larger mx,
      approxSmaller a nbins = .ok smaller ∧ approxLarger a nbins = .ok larger ∧
      maxOfList smaller = some mx ∧
      b = scatter (sideMasks a).2 (larger.map (fun v => v + (mx + 1)))
            (scatter (sideMasks a).1 smaller (List.replicate a.length 0)) := by
  rw [binSeqApprox_eq] at hok
  split_ifs at hok with hp
  exact ⟨hp, combineHalves_ok hok⟩

/-- C9: in the joining step, positions on the `is_smaller` side receive the
recursively computed `smaller` labels unchanged, positions on the `is_larger`
side receive the recursively computed `larger` labels offset by
`max(smaller) + 1`, and consequently every larger-side label strictly exceeds
every smaller-side label. -/
theorem C9_combine_offsets (a : List ℤ) (nbins : ℕ)
    (b smaller larger : List ℕ) (mx : ℕ)
    (hok : binSeqApprox a nbins = .ok b)
    (hs : approxSmaller a nbins = .ok smaller)
    (hl : approxLarger a nbins = .ok larger)
    (hmx : maxOfList smaller = some mx) :
    (∀ i, i < a.length → (sideMasks a).1.getD i false = true →
      b.getD i 0 = smaller.getD (((sideMasks a).1.take i).count true) 0) ∧
    (∀ j, j < a.length → (sideMasks a).2.getD j false = true →
      b.getD j 0 = larger.getD (((sideMasks a).2.take j).count true) 0 + (mx + 1)) ∧
    (∀ i j, i < a.length → j < a.length → (sideMasks a).1.getD i false = true →
      (sideMasks a).2.getD j false = true → b.getD i 0 < b.getD j 0) := by
  rcases binSeqApprox_ok_shape hok with ⟨hp, s', l', mx', hs', hl', hmx', hb⟩
  have hseq : s' = smaller := Except.ok.inj (hs'.symm.trans hs)
  have hleq : l' = larger := Except.ok.inj (hl'.symm.trans hl)
  rw [hseq] at hmx'
  rw [hseq, hleq] at hb
  have hmeq : mx' = mx := Option.some.inj (hmx'.symm.trans hmx)
  rw [hmeq] at hb
  subst hb
  have hslen := smaller_length_eq hs
  have hllen := larger_length_eq hl
  rcases approx_step_access a smaller larger mx hslen hllen with ⟨h1, h2⟩
  refine ⟨h1, h2, ?_⟩
  intro i j hi hj hmsi hmlj
  rw [h1 i hi hmsi, h2 j hj hmlj]
  have hms : (sideMasks a).1.length = a.length := (sideMasks_length a).1
  have hrankS : ((sideMasks a).1.take i).count true < smaller.length := by
    rw [hslen]
    exact count_take_lt _ i (by omega) hmsi
  have hle := getD_le_maxOfList hmx 0 (((sideMasks a).1.take i).count true) hrankS
  omega

theorem C9_combine_offsets_witness :
    (∀ i, i < ([0, 1, 2, 3] : List ℤ).length →
      (sideMasks [0, 1, 2, 3]).1.getD i false = true →
      ([0, 0, 1, 1] : List ℕ).getD i 0 =
        ([0, 0] : List ℕ).getD (((sideMasks [0, 1, 2, 3]).1.take i).count true) 0) ∧
    (∀ j, j < ([0, 1, 2, 3] : List ℤ).length →
      (sideMasks [0, 1, 2, 3]).2.getD j false = true →
      ([0, 0, 1, 1] : List ℕ).getD j 0 =
        ([0, 0] : List ℕ).getD (((sideMasks [0, 1, 2, 3]).2.take j).count true) 0 + (0 + 1)) ∧
    (∀ i j, i < ([0, 1, 2, 3] : List ℤ).length → j < ([0, 1, 2, 3] : List ℤ).length →
      (sideMasks [0, 1, 2, 3]).1.getD i false = true →
      (sideMasks [0, 1, 2, 3]).2.getD j false = true →
      ([0, 0, 1, 1] : List ℕ).getD i 0 < ([0, 0, 1, 1] : List ℕ).getD j 0) :=
  C9_combine_offsets [0, 1, 2, 3] 2 [0, 0, 1, 1] [0, 0] [0, 0] 0
    (by rfl) (by rfl) (by rfl) (by rfl)

theorem getD_replicate_zero (n r : ℕ) :
    (List.replicate n (0 : ℕ)).getD r 0 = 0 := by
  induction n generalizing r with
  | zero => cases r <;> rfl
  | succ n ih =>
    cases r with
    | zero => rfl
    | succ r =>
      rw [List.replicate_succ, List.getD_cons_succ]
      exact ih r

/-- Monotonicity of the approximate binning: order on input values induces
order on output labels (this is the key invariant behind both
label-consistency and value-contiguity of the labelled groups). -/
theorem binSeqApprox_ok_mono :
    ∀ (nbins : ℕ) (a : List ℤ) (b : List ℕ), binSeqApprox a nbins = .ok b →
      ∀ i j, i < a.length → j < a.length →
        a.getD i 0 ≤ a.getD j 0 → b.getD i 0 ≤ b.getD j 0 := by
  intro nbins
  induction nbins using Nat.strong_induction_on with
  | _ nbins ih =>
    intro a b hok i j hi hj hab
    rcases binSeqApprox_ok_shape hok with ⟨hp, smaller, larger, mx, hs, hl, hmx, rfl⟩
    have hslen := smaller_length_eq hs
    have hllen := larger_length_eq hl
    have hms : (sideMasks a).1.length = a.length := (sideMasks_length a).1
    have hml : (sideMasks a).2.length = a.length := (sideMasks_length a).2
    rcases approx_step_access a smaller larger mx hslen hllen with ⟨h1, h2⟩
    have hside : ∀ (mask : List Bool) (r : List ℕ), mask.length = a.length →
        halfStep binSeqApprox (maskFilter mask a) nbins = .ok r →
        ∀ u v, u < a.length → v < a.length → mask.getD u false = true →
          mask.getD v false = true → a.getD u 0 ≤ a.getD v 0 →
          r.getD ((mask.take u).count true) 0 ≤
            r.getD ((mask.take v).count true) 0 := by
      intro mask r hmask hstep u v hu hv hmu hmv hav
      unfold halfStep at hstep
      split_ifs at hstep with hc
      · obtain ⟨hc1, hc2⟩ := hc
        have hlt : nbins / 2 < nbins := by omega
        apply ih (nbins / 2) hlt (maskFilter mask a) r hstep
        · rw [length_maskFilter _ _ hmask]
          exact count_take_lt _ u (by omega) hmu
        · rw [length_maskFilter _ _ hmask]
          exact count_take_lt _ v (by omega) hmv
        · rw [getD_maskFilter 0 mask a u hmask (by omega) hmu,
            getD_maskFilter 0 mask a v hmask (by omega) hmv]
          exact hav
      · have hr : r = List.replicate (maskFilter mask a).length 0 :=
          (Except.ok.inj hstep).symm
        subst hr
        rw [getD_replicate_zero, getD_replicate_zero]
    rcases sideMasks_cover a i hi with ⟨hmsi, hmli⟩ | ⟨hmsi, hmli⟩ <;>
      rcases sideMasks_cover a j hj with ⟨hmsj, hmlj⟩ | ⟨hmsj, hmlj⟩
    · rw [h1 i hi hmsi, h1 j hj hmsj]
      exact hside (sideMasks a).1 smaller hms hs i j hi hj hmsi hmsj hab
    · rw [h1 i hi hmsi, h2 j hj hmlj]
      have hrankS : ((sideMasks a).1.take i).count true < smaller.length := by
        rw [hslen]
        exact count_take_lt _ i (by omega) hmsi
      have := getD_le_maxOfList hmx 0 _ hrankS
      omega
    · have hsep := sideMasks_sep a j i hj hi hmsj hmli
      rw [List.getD_eq_getElem _ _ hi, List.getD_eq_getElem _ _ hj] at hab
      omega
    · rw [h2 i hi hmli, h2 j hj hmlj]
      have := hside (sideMasks a).2 larger hml hl i j hi hj hmli hmlj hab
      omega

/-- At most `nbins` distinct labels appear in a successful result (for
`nbins ≥ 2`): each half contributes at most `nbins / 2` labels when it
recursed and one label (`0`) at the recursion floor. -/
theorem binSeqApprox_ok_card :
    ∀ (nbins : ℕ) (a : List ℤ) (b : List ℕ), 2 ≤ nbins →
      binSeqApprox a nbins = .ok b → b.toFinset.card ≤ nbins := by
  intro nbins
  induction nbins using Nat.strong_induction_on with
  | _ nbins ih =>
    intro a b hn hok
    rcases binSeqApprox_ok_shape hok with ⟨hp, smaller, larger, mx, hs, hl, hmx, rfl⟩
    have hslen := smaller_length_eq hs
    have hllen := larger_length_eq hl
    have hms : (sideMasks a).1.length = a.length := (sideMasks_length a).1
    have hml : (sideMasks a).2.length = a.length := (sideMasks_length a).2
    rcases approx_step_access a smaller larger mx hslen hllen with ⟨h1, h2⟩
    have hsub : (scatter (sideMasks a).2 (larger.map (fun v => v + (mx + 1)))
        (scatter (sideMasks a).1 smaller (List.replicate a.length 0))).toFinset ⊆
        smaller.toFinset ∪ (larger.map (fun v => v + (mx + 1))).toFinset := by
      intro v hv
      rw [List.mem_toFinset] at hv
      rcases List.mem_iff_getElem.mp hv with ⟨k, hk, hbk⟩
      have hklen : k < a.length := by
        rw [length_scatter, length_scatter, List.length_replicate] at hk
        exact hk
      have hbkD : (scatter (sideMasks a).2 (larger.map (fun v => v + (mx + 1)))
          (scatter (sideMasks a).1 smaller (List.replicate a.length 0))).getD k 0 = v := by
        rw [List.getD_eq_getElem _ _ hk, hbk]
      rw [Finset.mem_union, List.mem_toFinset, List.mem_toFinset]
      rcases sideMasks_cover a k hklen with ⟨hmsk, _⟩ | ⟨_, hmlk⟩
      · rw [h1 k hklen hmsk] at hbkD
        left
        have hrank : ((sideMasks a).1.take k).count true < smaller.length := by
          rw [hslen]
          exact count_take_lt _ k (by omega) hmsk
        rw [← hbkD, List.getD_eq_getElem _ _ hrank]
        exact List.getElem_mem _
      · rw [h2 k hklen hmlk] at hbkD
        right
        have hrank : ((sideMasks a).2.take k).count true < larger.length := by
          rw [hllen]
          exact count_take_lt _ k (by omega) hmlk
        rw [← hbkD]
        have hmem : larger.getD (((sideMasks a).2.take k).count true) 0 ∈ larger := by
          rw [List.getD_eq_getElem _ _ hrank]
          exact List.getElem_mem _
        exact List.mem_map_of_mem _ hmem
    have hhalf : ∀ (mask : List Bool) (r : List ℕ),
        halfStep binSeqApprox (maskFilter mask a) nbins = .ok r →
        r.toFinset.card ≤ 1 ∨ (2 ≤ nbins / 2 ∧ r.toFinset.card ≤ nbins / 2) := by
      intro mask r hstep
      unfold halfStep at hstep
      split_ifs at hstep with hc
      · obtain ⟨hc1, hc2⟩ := hc
        right
        refine ⟨by omega, ?_⟩
        exact ih (nbins / 2) (by omega) _ r (by omega) hstep
      · left
        have hr : r = List.replicate (maskFilter mask a).length 0 :=
          (Except.ok.inj hstep).symm
        subst hr
        have hsub0 : (List.replicate (maskFilter mask a).length (0 : ℕ)).toFinset ⊆
            {0} := by
          intro v hv
          rw [List.mem_toFinset] at hv
          have := List.eq_of_mem_replicate hv
          simp [this]
        calc (List.replicate (maskFilter mask a).length (0 : ℕ)).toFinset.card
            ≤ ({0} : Finset ℕ).card := Finset.card_le_card hsub0
          _ = 1 := Finset.card_singleton _
    have hmap : (larger.map (fun v => v + (mx + 1))).toFinset.card =
        larger.toFinset.card := by
      have he : (larger.map (fun v => v + (mx + 1))).toFinset =
          larger.toFinset.image (fun v => v + (mx + 1)) := by
        apply Finset.ext
        intro v
        simp [List.mem_toFinset, List.mem_map, Finset.mem_image]
      rw [he]
      apply Finset.card_image_of_injective
      intro x y hxy
      have hxy' : x + (mx + 1) = y + (mx + 1) := hxy
      omega
    have hcard := le_trans (Finset.card_le_card hsub)
      (Finset.card_union_le smaller.toFinset
        ((larger.map (fun v => v + (mx + 1))).toFinset))
    rw [hmap] at hcard
    rcases hhalf (sideMasks a).1 smaller hs with hcs | ⟨hns, hcs⟩ <;>
      rcases hhalf (sideMasks a).2 larger hl with hcl | ⟨hnl, hcl⟩ <;>
      omega

/-- C6 counterexample: on the all-equal input `[5, 5]` with `nbins = 2` the
`smaller` side is empty, `np.max(smaller)` raises `ValueError`, and no output
is returned at all. -/
theorem C6_all_equal_crash_counterexample :
    binSeqApprox [5, 5] 2 = Except.error Err.emptyMax := by rfl

/-- C6 amended: whenever `bin_sequence_approximately(a, nbins)` (power-of-two
`nbins ≥ 2`) returns a result — it raises instead whenever a recursive slice
has all-equal values, e.g. `a = [5, 5]` — the output has the input size, uses
at most `nbins` distinct bin labels, gives equal input values equal labels,
labels monotonically in value, and hence keeps every labelled group internally
contiguous in value. -/
theorem C6_approx_output_amended (a : List ℤ) (nbins : ℕ) (b : List ℕ)
    (hn : 2 ≤ nbins) (hok : binSeqApprox a nbins = .ok b) :
    b.length = a.length ∧
    b.toFinset.card ≤ nbins ∧
    (∀ i j, i < a.length → j < a.length → a.getD i 0 = a.getD j 0 →
      b.getD i 0 = b.getD j 0) ∧
    (∀ i j, i < a.length → j < a.length → a.getD i 0 ≤ a.getD j 0 →
      b.getD i 0 ≤ b.getD j 0) ∧
    (∀ i j k, i < a.length → j < a.length → k < a.length →
      a.getD i 0 ≤ a.getD j 0 → a.getD j 0 ≤ a.getD k 0 →
      b.getD i 0 = b.getD k 0 → b.getD j 0 = b.getD i 0) := by
  have hmono := binSeqApprox_ok_mono nbins a b hok
  refine ⟨binSeqApprox_ok_length hok, binSeqApprox_ok_card nbins a b hn hok,
    ?_, ?_, ?_⟩
  · intro i j hi hj he
    exact le_antisymm (hmono i j hi hj (le_of_eq he))
      (hmono j i hj hi (le_of_eq he.symm))
  · exact hmono
  · intro i j k hi hj hk h1 h2 h13
    have hij := hmono i j hi hj h1
    have hjk := hmono j k hj hk h2
    omega

theorem C6_approx_output_amended_witness :
    ([0, 1, 1] : List ℕ).length = ([0, 1, 2] : List ℤ).length ∧
    ([0, 1, 1] : List ℕ).toFinset.card ≤ 2 ∧
    (∀ i j, i < ([0, 1, 2] : List ℤ).length → j < ([0, 1, 2] : List ℤ).length →
      ([0, 1, 2] : List ℤ).getD i 0 = ([0, 1, 2] : List ℤ).getD j 0 →
      ([0, 1, 1] : List ℕ).getD i 0 = ([0, 1, 1] : List ℕ).getD j 0) ∧
    (∀ i j, i < ([0, 1, 2] : List ℤ).length → j < ([0, 1, 2] : List ℤ).length →
      ([0, 1, 2] : List ℤ).getD i 0 ≤ ([0, 1, 2] : List ℤ).getD j 0 →
      ([0, 1, 1] : List ℕ).getD i 0 ≤ ([0, 1, 1] : List ℕ).getD j 0) ∧
    (∀ i j k, i < ([0, 1, 2] : List ℤ).length → j < ([0, 1, 2] : List ℤ).length →
      k < ([0, 1, 2] : List ℤ).length →
      ([0, 1, 2] : List ℤ).getD i 0 ≤ ([0, 1, 2] : List ℤ).getD j 0 →
      ([0, 1, 2] : List ℤ).getD j 0 ≤ ([0, 1, 2] : List ℤ).getD k 0 →
      ([0, 1, 1] : List ℕ).getD i 0 = ([0, 1, 1] : List ℕ).getD k 0 →
      ([0, 1, 1] : List ℕ).getD j 0 = ([0, 1, 1] : List ℕ).getD i 0) :=
  C6_approx_output_amended [0, 1, 2] 2 [0, 1, 1] (by norm_num) (by rfl)

/-- Model of numpy `reshape` back to the row shape of `A` after a row-major
`ravel`: split the flat list following `A`'s own row lengths. -/
def reshapeLike {β : Type*} : List (List α) → List β → List (List β)
  | [], _ => []
  | r :: rs, b => b.take r.length :: reshapeLike rs (b.drop r.length)

/-- Model of `bin_array(A, nbins, axis)` on a two-dimensional array: with
`axis = None` it flattens (`A.ravel()`, row-major), bins the flat sequence and
reshapes back; with `axis = 1` (`np.apply_along_axis`) it bins every row
independently, with `axis = 0` every column; any other axis is a numpy
`AxisError`. -/
def binArray (A : List (List ℤ)) (nbins : ℕ) (axis : Option ℕ) :
    Except Err (List (List (Option ℕ))) :=
  match axis with
  | none => (binSequence A.flatten nbins).map (reshapeLike A)
  | some 0 => (A.transpose.mapM (fun col => binSequence col nbins)).map
      List.transpose
  | some 1 => A.mapM (fun row => binSequence row nbins)
  | some _ => .error .badAxis

/-- Model of `bin_array_approximately(A, nbins, axis)`. -/
def binArrayApprox (A : List (List ℤ)) (nbins : ℕ) (axis : Option ℕ) :
    Except Err (List (List ℕ)) :=
  match axis with
  | none => (binSeqApprox A.flatten nbins).map (reshapeLike A)
  | some 0 => (A.transpose.mapM (fun col => binSeqApprox col nbins)).map
      List.transpose
  | some 1 => A.mapM (fun row => binSeqApprox row nbins)
  | some _ => .error .badAxis

/-- Splitting a flat list into `rows` consecutive chunks of length `m`: the
original `N x M` shape of the array, as the spec describes it. -/
def chunksOf {β : Type*} : ℕ → ℕ → List β → List (List β)
  | 0, _, _ => []
  | rows + 1, m, b => b.take m :: chunksOf rows m (b.drop m)

/-- Modelled from the spec (C10): `bin_array(A, nbins, axis=None)` should
equal `bin_sequence(A.flatten(), nbins)` reshaped back to `A`'s original
`N x M` shape. -/
def binArraySpecNone (A : List (List ℤ)) (nbins m : ℕ) :
    Except Err (List (List (Option ℕ))) :=
  (binSequence A.flatten nbins).map (chunksOf A.length m)

/-- Modelled from the spec (C10): the approximate variant of
`binArraySpecNone`. -/
def binArrayApproxSpecNone (A : List (List ℤ)) (nbins m : ℕ) :
    Except Err (List (List ℕ)) :=
  (binSeqApprox A.flatten nbins).map (chunksOf A.length m)

theorem reshapeLike_eq_chunksOf {β : Type*} (m : ℕ) :
    ∀ (A : List (List ℤ)) (b : List β), (∀ r ∈ A, r.length = m) →
      reshapeLike A b = chunksOf A.length m b := by
  intro A
  induction A with
  | nil => intro b _; rfl
  | cons r rs ih =>
    intro b hm
    have hr : r.length = m := hm r (by simp)
    simp only [reshapeLike, List.length_cons, chunksOf, hr]
    rw [ih (b.drop m) (fun g hg => hm g (by simp [hg]))]

/-- C10: on any rectangular array (`N` rows of uniform length `m`),
`bin_array` with `axis = None` coincides with binning the row-major
flattening and reshaping back to the original shape, for both the exact and
approximate entry points (error outcomes included). -/
theorem C10_axis_none_refinement (A : List (List ℤ)) (nbins m : ℕ)
    (hm : ∀ r ∈ A, r.length = m) :
    binArray A nbins none = binArraySpecNone A nbins m ∧
    binArrayApprox A nbins none = binArrayApproxSpecNone A nbins m := by
  constructor
  · show (binSequence A.flatten nbins).map (reshapeLike A) =
      (binSequence A.flatten nbins).map (chunksOf A.length m)
    cases binSequence A.flatten nbins with
    | error e => rfl
    | ok b => simp [Except.map, reshapeLike_eq_chunksOf m A b hm]
  · show (binSeqApprox A.flatten nbins).map (reshapeLike A) =
      (binSeqApprox A.flatten nbins).map (chunksOf A.length m)
    cases binSeqApprox A.flatten nbins with
    | error e => rfl
    | ok b => simp [Except.map, reshapeLike_eq_chunksOf m A b hm]

theorem C10_axis_none_refinement_witness :
    binArray [[0, 0], [1, 1]] 2 none = binArraySpecNone [[0, 0], [1, 1]] 2 2 ∧
    binArrayApprox [[0, 0], [1, 1]] 2 none =
      binArrayApproxSpecNone [[0, 0], [1, 1]] 2 2 :=
  C10_axis_none_refinement [[0, 0], [1, 1]] 2 2 (by
    intro r hr
    rcases List.mem_cons.mp hr with rfl | hr
    · rfl
    · rcases List.mem_cons.mp hr with rfl | hr
      · rfl
      · cases hr)

theorem mem_le_maxIdx {r : List ℕ} {x : ℕ} (hx : x ∈ r) : x ≤ maxIdx r := by
  unfold maxIdx
  induction r with
  | nil => cases hx
  | cons y ys ih =>
    rcases List.mem_cons.mp hx with rfl | hx'
    · exact le_max_left _ _
    · exact le_trans (ih hx') (le_max_right _ _)

theorem sum_map_add {ι M : Type*} [AddCommMonoid M] (l : List ι) (f g : ι → M) :
    (l.map (fun i => f i + g i)).sum = (l.map f).sum + (l.map g).sum := by
  induction l with
  | nil => simp
  | cons x xs ih =>
    simp only [List.map_cons, List.sum_cons, ih]
    abel

theorem sum_map_sub {ι M : Type*} [AddCommGroup M] (l : List ι) (f g : ι → M) :
    (l.map (fun i => f i - g i)).sum = (l.map f).sum - (l.map g).sum := by
  induction l with
  | nil => simp
  | cons x xs ih =>
    simp only [List.map_cons, List.sum_cons, ih]
    abel

theorem sum_map_div {ι : Type*} (l : List ι) (f : ι → ℝ) (k : ℝ) :
    (l.map (fun i => f i / k)).sum = (l.map f).sum / k := by
  induction l with
  | nil => simp
  | cons x xs ih =>
    simp only [List.map_cons, List.sum_cons, ih]
    ring

theorem sum_map_mul_right {ι : Type*} (l : List ι) (f : ι → ℝ) (k : ℝ) :
    (l.map (fun i => f i * k)).sum = (l.map f).sum * k := by
  induction l with
  | nil => simp
  | cons x xs ih =>
    simp only [List.map_cons, List.sum_cons, ih]
    ring

theorem sum_range_indicator (x : ℕ) :
    ∀ K : ℕ, ((List.range K).map (fun i => if x = i then 1 else 0)).sum =
      if x < K then 1 else 0 := by
  intro K
  induction K with
  | zero => simp
  | succ K ih =>
    rw [List.range_succ, List.map_append, List.sum_append, ih]
    simp only [List.map_cons, List.map_nil, List.sum_cons, List.sum_nil]
    by_cases h1 : x < K
    · simp [h1, show x ≠ K by omega, show x < K + 1 by omega]
    · by_cases h2 : x = K
      · simp [h1, h2]
      · simp [h1, h2, show ¬ x < K + 1 by omega]

theorem sum_counts_eq_length :
    ∀ (r : List ℕ) (K : ℕ), (∀ x ∈ r, x < K) →
      ((List.range K).map (fun i => r.count i)).sum = r.length := by
  intro r
  induction r with
  | nil => intro K _; simp
  | cons x rest ih =>
    intro K hK
    have hcc : ∀ i ∈ List.range K, (x :: rest).count i =
        rest.count i + (if x = i then 1 else 0) := by
      intro i _
      rw [List.count_cons]
      congr 1
      by_cases h : x = i <;> simp [h]
    rw [List.map_congr_left hcc, sum_map_add, ih K (fun y hy => hK y (by simp [hy])),
      sum_range_indicator]
    have hxK : x < K := hK x (by simp)
    simp [hxK]

theorem pow_self_one_le (c : ℕ) : 1 ≤ c ^ c := by
  cases c with
  | zero => simp
  | succ n => exact Nat.one_le_pow _ _ (by omega)

theorem one_le_prod_list : ∀ {l : List ℕ}, (∀ y ∈ l, 1 ≤ y) → 1 ≤ l.prod := by
  intro l
  induction l with
  | nil => intro _; simp
  | cons x xs ih =>
    intro h
    rw [List.prod_cons]
    have := Nat.mul_le_mul (h x (by simp)) (ih (fun y hy => h y (by simp [hy])))
    simpa using this

theorem weight_pos (r : List ℕ) : 1 ≤ weight r := by
  unfold weight
  apply one_le_prod_list
  intro y hy
  rcases List.mem_map.mp hy with ⟨i, _, rfl⟩
  exact pow_self_one_le _

theorem logb_prod_pow (c : ℕ → ℕ) :
    ∀ (l : List ℕ),
      Real.logb 2 (((l.map (fun i => c i ^ c i)).prod : ℕ) : ℝ) =
        (l.map (fun i => (c i : ℝ) * Real.logb 2 (c i))).sum := by
  intro l
  induction l with
  | nil => simp
  | cons x xs ih =>
    rw [List.map_cons, List.prod_cons, List.map_cons, List.sum_cons]
    have hx1 : 1 ≤ c x ^ c x := pow_self_one_le _
    have hxs1 : 1 ≤ ((xs.map (fun i => c i ^ c i)).prod) := by
      apply one_le_prod_list
      intro y hy
      rcases List.mem_map.mp hy with ⟨i, _, rfl⟩
      exact pow_self_one_le _
    have hcast : ((c x ^ c x * (xs.map (fun i => c i ^ c i)).prod : ℕ) : ℝ) =
        ((c x ^ c x : ℕ) : ℝ) * (((xs.map (fun i => c i ^ c i)).prod : ℕ) : ℝ) := by
      push_cast
      ring
    rw [hcast, Real.logb_mul (by positivity) (by
      have : (0:ℝ) < (((xs.map (fun i => c i ^ c i)).prod : ℕ) : ℝ) := by
        exact_mod_cast Nat.lt_of_lt_of_le Nat.zero_lt_one hxs1
      exact ne_of_gt this), ih]
    congr 1
    rw [show ((c x ^ c x : ℕ) : ℝ) = ((c x : ℝ)) ^ (c x) by push_cast; ring]
    exact Real.logb_pow 2 _ _

/-- Closed form of the scorer's (non-NaN) value: for a non-empty realized
sequence, `H = log2 N - log2 (weight) / N`, so the strict float comparison on
entropies is exactly the reversed strict comparison on integer weights. -/
theorem getH_eq (b : List (Option ℕ)) (hne : realized b ≠ []) :
    getH b = Real.logb 2 ((realized b).length : ℝ) -
      Real.logb 2 ((weight (realized b) : ℕ) : ℝ) / ((realized b).length : ℝ) := by
  have hN0 : 0 < (realized b).length := List.length_pos.mpr hne
  have hNR : (0:ℝ) < ((realized b).length : ℝ) := by exact_mod_cast hN0
  have hK : ∀ x ∈ realized b, x < maxIdx (realized b) + 1 := by
    intro x hx
    have := mem_le_maxIdx hx
    omega
  have hsum := sum_counts_eq_length (realized b) (maxIdx (realized b) + 1) hK
  have hterm : ∀ i ∈ List.range (maxIdx (realized b) + 1),
      (((realized b).count i : ℝ) / ((realized b).length : ℝ)) *
        Real.logb 2 (((realized b).count i : ℝ) / ((realized b).length : ℝ)) =
      (((realized b).count i : ℝ) * Real.logb 2 ((realized b).count i)) /
          ((realized b).length : ℝ) -
        (((realized b).count i : ℝ) * (Real.logb 2 ((realized b).length : ℝ) /
          ((realized b).length : ℝ))) := by
    intro i _
    by_cases hc : (realized b).count i = 0
    · simp [hc]
    · have hc' : (0:ℝ) < ((realized b).count i : ℝ) := by
        exact_mod_cast Nat.pos_of_ne_zero hc
      rw [Real.logb_div (ne_of_gt hc') (ne_of_gt hNR)]
      ring
  unfold getH
  rw [List.map_congr_left hterm, sum_map_sub, sum_map_div, sum_map_mul_right]
  have hcount_cast : ((List.range (maxIdx (realized b) + 1)).map
      (fun i => (((realized b).count i : ℕ) : ℝ))).sum = ((realized b).length : ℝ) := by
    have hc := Nat.cast_list_sum (β := ℝ)
      ((List.range (maxIdx (realized b) + 1)).map (fun i => (realized b).count i))
    rw [hsum, List.map_map] at hc
    simpa [Function.comp] using hc.symm
  rw [hcount_cast]
  have hlog : ((List.range (maxIdx (realized b) + 1)).map
      (fun i => (((realized b).count i : ℕ) : ℝ) *
        Real.logb 2 ((realized b).count i))).sum =
      Real.logb 2 ((weight (realized b) : ℕ) : ℝ) := by
    rw [← logb_prod_pow (fun i => (realized b).count i)
      (List.range (maxIdx (realized b) + 1))]
    rfl
  rw [hlog]
  field_simp
  ring

/-- Entropy comparison through weights: at equal (positive) sample size,
smaller weight means larger entropy. -/
theorem getH_le_of_weight_le {b1 b2 : List (Option ℕ)}
    (h1 : realized b1 ≠ []) (h2 : realized b2 ≠ [])
    (hlen : (realized b1).length = (realized b2).length)
    (hw : weight (realized b1) ≤ weight (realized b2)) : getH b2 ≤ getH b1 := by
  rw [getH_eq b1 h1, getH_eq b2 h2, ← hlen]
  have hNR : (0:ℝ) < ((realized b1).length : ℝ) := by
    exact_mod_cast List.length_pos.mpr h1
  have hw1 : (0:ℝ) < ((weight (realized b1) : ℕ) : ℝ) := by
    exact_mod_cast Nat.lt_of_lt_of_le Nat.zero_lt_one (weight_pos _)
  have hw2 : (0:ℝ) < ((weight (realized b2) : ℕ) : ℝ) := by
    exact_mod_cast Nat.lt_of_lt_of_le Nat.zero_lt_one (weight_pos _)
  have hmono : Real.logb 2 ((weight (realized b1) : ℕ) : ℝ) ≤
      Real.logb 2 ((weight (realized b2) : ℕ) : ℝ) := by
    rw [Real.logb_le_logb (by norm_num) hw1 hw2]
    exact_mod_cast hw
  have hdiv : Real.logb 2 ((weight (realized b1) : ℕ) : ℝ) / ((realized b1).length : ℝ) ≤
      Real.logb 2 ((weight (realized b2) : ℕ) : ℝ) / ((realized b1).length : ℝ) := by
    gcongr
  linarith

/-- Number of data points of `a` falling in the value group `g`. -/
def cIn (a : List ℤ) (g : List ℤ) : ℕ :=
  a.countP (fun x => decide (x ∈ g))

/-- The weight of a partition applied to `a`, written directly over the
partition's groups. -/
def pweight (a : List ℤ) (p : List (List ℤ)) : ℕ :=
  (p.map (fun g => cIn a g ^ cIn a g)).prod

theorem binIndexLast_isSome_iff :
    ∀ (p : List (List ℤ)) (x : ℤ), (binIndexLast p x).isSome ↔ x ∈ p.flatten := by
  intro p x
  induction p with
  | nil => simp [binIndexLast]
  | cons g gs ih =>
    rcases h : binIndexLast gs x with _ | i
    · rw [h] at ih
      simp only [binIndexLast, h]
      by_cases hg : x ∈ g
      · simp [hg]
      · simp only [hg, if_false, List.flatten_cons, List.mem_append]
        simp only [Option.isSome_none] at ih ⊢
        simp [hg, ← ih]
    · rw [h] at ih
      simp only [binIndexLast, h, List.flatten_cons, List.mem_append]
      simp only [Option.isSome_some, true_iff] at ih
      simp [ih]

theorem binIndexLast_some :
    ∀ (p : List (List ℤ)) (x : ℤ) (i : ℕ), binIndexLast p x = some i →
      i < p.length ∧ x ∈ p.getD i [] := by
  intro p
  induction p with
  | nil => intro x i h; cases h
  | cons g gs ih =>
    intro x i h
    rcases hr : binIndexLast gs x with _ | j
    · rw [binIndexLast, hr] at h
      by_cases hg : x ∈ g
      · rw [if_pos hg] at h
        have hi : i = 0 := by
          injection h with h'
          exact h'.symm
        subst hi
        exact ⟨by simp, hg⟩
      · rw [if_neg hg] at h
        cases h
    · rw [binIndexLast, hr] at h
      have hi : i = j + 1 := by
        injection h with h'
        exact h'.symm
      subst hi
      rcases ih x j hr with ⟨hj, hx⟩
      exact ⟨by simpa using hj, by simpa using hx⟩

theorem mem_flatten_of_mem_getD {p : List (List ℤ)} {x : ℤ} {i : ℕ}
    (hi : i < p.length) (hx : x ∈ p.getD i []) : x ∈ p.flatten := by
  rw [List.mem_flatten]
  refine ⟨p.getD i [], ?_, hx⟩
  rw [List.getD_eq_getElem _ _ hi]
  exact List.getElem_mem _

theorem binIndexLast_of_mem_getD :
    ∀ (p : List (List ℤ)), p.flatten.Nodup → ∀ (x : ℤ) (i : ℕ),
      i < p.length → x ∈ p.getD i [] → binIndexLast p x = some i := by
  intro p
  induction p with
  | nil => intro _ x i hi; cases hi
  | cons g gs ih =>
    intro hnd x i hi hx
    rw [List.flatten_cons, List.nodup_append] at hnd
    rcases hnd with ⟨hndg, hndgs, hdisj⟩
    cases i with
    | zero =>
      simp only [List.getD_cons_zero] at hx
      have hnot : x ∉ gs.flatten := fun hc => hdisj hx hc
      have hnone : binIndexLast gs x = none := by
        rcases h : binIndexLast gs x with _ | j
        · rfl
        · exact absurd ((binIndexLast_isSome_iff gs x).mp (by rw [h]; rfl)) hnot
      rw [binIndexLast, hnone, if_pos hx]
    | succ j =>
      simp only [List.getD_cons_succ] at hx
      have hj : j < gs.length := by simpa using hi
      have hrec := ih hndgs x j hj hx
      rw [binIndexLast, hrec]

theorem realized_applyBinning_of_total {a : List ℤ} {p : List (List ℤ)}
    (h : ∀ x ∈ a, (binIndexLast p x).isSome) :
    realized (applyBinning a p) =
      a.map (fun x => (binIndexLast p x).getD 0) := by
  induction a with
  | nil => rfl
  | cons x xs ih =>
    have hx := h x (by simp)
    rcases Option.isSome_iff_exists.mp hx with ⟨v, hv⟩
    rw [applyBinning] at ih ⊢
    rw [List.map_cons, List.map_cons, realized, List.filterMap_cons]
    simp only [hv, id, Option.getD_some]
    exact congrArg (v :: ·) (ih (fun y hy => h y (by simp [hy])))

theorem partition_coverage {a : List ℤ} {nbins : ℕ} {p : List (List ℤ)}
    (hp : IsNPartition (rangeList (minI a) (maxI a)) nbins p) :
    ∀ x ∈ a, (binIndexLast p x).isSome := by
  intro x hx
  rw [binIndexLast_isSome_iff, hp.2.1]
  exact mem_valueRange hx

theorem partition_flatten_nodup {a : List ℤ} {nbins : ℕ} {p : List (List ℤ)}
    (hp : IsNPartition (rangeList (minI a) (maxI a)) nbins p) :
    p.flatten.Nodup := by
  rw [hp.2.1]
  exact rangeList_nodup _ _

theorem realized_length {a : List ℤ} {nbins : ℕ} {p : List (List ℤ)}
    (hp : IsNPartition (rangeList (minI a) (maxI a)) nbins p) :
    (realized (applyBinning a p)).length = a.length := by
  rw [realized_applyBinning_of_total (partition_coverage hp), List.length_map]

theorem count_realized {a : List ℤ} {nbins : ℕ} {p : List (List ℤ)}
    (hp : IsNPartition (rangeList (minI a) (maxI a)) nbins p)
    (i : ℕ) (hi : i < p.length) :
    (realized (applyBinning a p)).count i = cIn a (p.getD i []) := by
  rw [realized_applyBinning_of_total (partition_coverage hp)]
  rw [List.count_eq_countP, List.countP_map]
  unfold cIn
  apply List.countP_congr
  intro x hx
  rcases Option.isSome_iff_exists.mp (partition_coverage hp x hx) with ⟨j, hj⟩
  simp only [Function.comp, hj, Option.getD_some, beq_iff_eq, decide_eq_true_eq]
  constructor
  · rintro rfl
    exact (binIndexLast_some p x j hj).2
  · intro hxm
    have := binIndexLast_of_mem_getD p (partition_flatten_nodup hp) x i hi hxm
    rw [hj] at this
    injection this

theorem minI_le_maxI {a : List ℤ} (ha : a ≠ []) : minI a ≤ maxI a :=
  le_maxI (minI_mem ha)

theorem rangeList_getLast? {lo hi : ℤ} (h : lo ≤ hi) :
    (rangeList lo hi).getLast? = some hi := by
  have hn : 1 ≤ (hi + 1 - lo).toNat := by omega
  have hlen : (rangeList lo hi).length = (hi + 1 - lo).toNat := by
    unfold rangeList
    rw [List.length_map, List.length_range]
  rw [List.getLast?_eq_getElem?, hlen]
  have hlt : (hi + 1 - lo).toNat - 1 < (rangeList lo hi).length := by omega
  rw [List.getElem?_eq_getElem hlt]
  congr 1
  unfold rangeList
  rw [List.getElem_map, List.getElem_range]
  omega

theorem getLast_mem_last_group :
    ∀ (p : List (List ℤ)) (z : ℤ), p ≠ [] → (∀ g ∈ p, g ≠ []) →
      p.flatten.getLast? = some z → z ∈ p.getD (p.length - 1) [] := by
  intro p
  induction p with
  | nil => intro z h; exact absurd rfl h
  | cons g gs ih =>
    intro z _ hne hlast
    cases gs with
    | nil =>
      simp only [List.flatten_cons, List.flatten_nil, List.append_nil] at hlast
      simp only [List.length_cons, List.length_nil, Nat.zero_add,
        Nat.sub_self, List.getD_cons_zero]
      rw [List.getLast?_eq_getElem?] at hlast
      rcases hg : g.length with _ | n
      · rw [hg] at hlast
        simp at hlast
        exact absurd hlast (by
          intro hc
          exact hne g (by simp) (List.length_eq_zero.mp hg))
      · have hlt : g.length - 1 < g.length := by omega
        rw [List.getElem?_eq_getElem hlt] at hlast
        have hz : g[g.length - 1] = z := by injection hlast
        rw [← hz]
        exact List.getElem_mem _
    | cons g' gs' =>
      have htailne : (g' :: gs').flatten ≠ [] := by
        simp only [List.flatten_cons, ne_eq, List.append_eq_nil, not_and]
        intro hg'
        exact absurd hg' (hne g' (by simp))
      rw [List.flatten_cons, List.getLast?_append_of_ne_nil _ htailne] at hlast
      have hrec := ih z (by simp) (fun h hh => hne h (by simp [hh])) hlast
      have hidx : (g :: g' :: gs').length - 1 = ((g' :: gs').length - 1) + 1 := by
        simp
      rw [hidx, List.getD_cons_succ]
      exact hrec

theorem maxIdx_le {r : List ℕ} {K : ℕ} (h : ∀ y ∈ r, y ≤ K) : maxIdx r ≤ K := by
  unfold maxIdx
  induction r with
  | nil => simp
  | cons y ys ih =>
    simp only [List.foldr_cons]
    exact max_le (h y (by simp)) (ih (fun z hz => h z (by simp [hz])))

theorem maxI_in_last_group {a : List ℤ} {nbins : ℕ} {p : List (List ℤ)}
    (ha : a ≠ []) (hp : IsNPartition (rangeList (minI a) (maxI a)) nbins p) :
    maxI a ∈ p.getD (p.length - 1) [] := by
  have hpne : p ≠ [] := by
    intro hc
    rw [hc] at hp
    exact rangeList_ne_nil (minI_le_maxI ha) hp.2.1.symm
  apply getLast_mem_last_group p (maxI a) hpne hp.2.2
  rw [hp.2.1]
  exact rangeList_getLast? (minI_le_maxI ha)

theorem maxIdx_realized {a : List ℤ} {nbins : ℕ} {p : List (List ℤ)}
    (ha : a ≠ []) (hp : IsNPartition (rangeList (minI a) (maxI a)) nbins p) :
    maxIdx (realized (applyBinning a p)) = p.length - 1 := by
  have hpne : p ≠ [] := by
    intro hc
    rw [hc] at hp
    exact rangeList_ne_nil (minI_le_maxI ha) hp.2.1.symm
  have hplen : 1 ≤ p.length := List.length_pos.mpr hpne
  apply le_antisymm
  · apply maxIdx_le
    intro y hy
    rw [realized_applyBinning_of_total (partition_coverage hp)] at hy
    rcases List.mem_map.mp hy with ⟨x, hx, rfl⟩
    rcases Option.isSome_iff_exists.mp (partition_coverage hp x hx) with ⟨j, hj⟩
    rw [hj]
    have := (binIndexLast_some p x j hj).1
    simp only [Option.getD_some]
    omega
  · apply mem_le_maxIdx
    rw [realized_applyBinning_of_total (partition_coverage hp)]
    refine List.mem_map.mpr ⟨maxI a, maxI_mem ha, ?_⟩
    rw [binIndexLast_of_mem_getD p (partition_flatten_nodup hp) (maxI a)
      (p.length - 1) (by omega) (maxI_in_last_group ha hp)]
    rfl

theorem map_range_getD {β γ : Type*} (f : β → γ) (d : β) :
    ∀ (p : List β),
      (List.range p.length).map (fun i => f (p.getD i d)) = p.map f := by
  intro p
  induction p with
  | nil => rfl
  | cons x xs ih =>
    have h1 : (List.range (x :: xs).length).map (fun i => f ((x :: xs).getD i d)) =
        f x :: (List.range xs.length).map (fun i => f (xs.getD i d)) := by
      rw [List.length_cons, List.range_succ_eq_map, List.map_cons,
        List.getD_cons_zero, List.map_map]
      rfl
    rw [h1, ih, List.map_cons]

theorem weight_realized {a : List ℤ} {nbins : ℕ} {p : List (List ℤ)}
    (ha : a ≠ []) (hp : IsNPartition (rangeList (minI a) (maxI a)) nbins p) :
    weight (realized (applyBinning a p)) = pweight a p := by
  have hpne : p ≠ [] := by
    intro hc
    rw [hc] at hp
    exact rangeList_ne_nil (minI_le_maxI ha) hp.2.1.symm
  have hplen : 1 ≤ p.length := List.length_pos.mpr hpne
  unfold weight
  rw [maxIdx_realized ha hp]
  rw [show p.length - 1 + 1 = p.length by omega]
  rw [List.map_congr_left (fun i hi => by
    rw [count_realized hp i (List.mem_range.mp hi)])]
  rw [map_range_getD (fun g => cIn a g ^ cIn a g) [] p]
  rfl

theorem mem_getD_of_lt {β : Type*} {p : List β} {i : ℕ} (d : β)
    (hi : i < p.length) : p.getD i d ∈ p := by
  rw [List.getD_eq_getElem _ _ hi]
  exact List.getElem_mem _

theorem scoreIsNaN_realized_iff {a : List ℤ} {nbins : ℕ} {p : List (List ℤ)}
    (ha : a ≠ []) (hp : IsNPartition (rangeList (minI a) (maxI a)) nbins p) :
    scoreIsNaN (realized (applyBinning a p)) = false ↔ ∀ g ∈ p, cIn a g ≠ 0 := by
  have hpne : p ≠ [] := by
    intro hc
    rw [hc] at hp
    exact rangeList_ne_nil (minI_le_maxI ha) hp.2.1.symm
  have hplen : 1 ≤ p.length := List.length_pos.mpr hpne
  have hlast : cIn a (p.getD (p.length - 1) []) ≠ 0 := by
    intro hc
    have hpos : 0 < cIn a (p.getD (p.length - 1) []) := by
      unfold cIn
      rw [List.countP_pos_iff]
      exact ⟨maxI a, maxI_mem ha, decide_eq_true (maxI_in_last_group ha hp)⟩
    omega
  unfold scoreIsNaN
  rw [maxIdx_realized ha hp, List.any_eq_false]
  constructor
  · intro h g hg
    rcases List.mem_iff_getElem.mp hg with ⟨i, hilen, hig⟩
    have hgD : p.getD i [] = g := by
      rw [List.getD_eq_getElem _ _ hilen, hig]
    by_cases hi : i < p.length - 1
    · have := h i (List.mem_range.mpr hi)
      rw [count_realized hp i hilen, hgD] at this
      simpa using this
    · have hieq : i = p.length - 1 := by omega
      rw [← hgD, hieq]
      exact hlast
  · intro h i hi
    rw [List.mem_range] at hi
    have hilen : i < p.length := by omega
    rw [count_realized hp i hilen]
    simpa using h (p.getD i []) (mem_getD_of_lt [] hilen)

/-- Invariant of the search loop: the running weight never increases, it
bounds every non-NaN candidate seen so far from below, and whenever the best
binning is set it is a non-NaN candidate achieving exactly the running
weight. -/
theorem foldl_searchStep_spec (a : List ℤ) :
    ∀ (ps : List (List (List ℤ))) (st : ℕ × Option (List (List ℤ))),
      ((ps.foldl (searchStep a) st).1 ≤ st.1) ∧
      (∀ q ∈ ps, scoreIsNaN (realized (applyBinning a q)) = true ∨
        (ps.foldl (searchStep a) st).1 ≤ weight (realized (applyBinning a q))) ∧
      (((ps.foldl (searchStep a) st).2 = st.2 ∧
          (ps.foldl (searchStep a) st).1 = st.1) ∨
        ∃ q ∈ ps, (ps.foldl (searchStep a) st).2 = some q ∧
          scoreIsNaN (realized (applyBinning a q)) = false ∧
          (ps.foldl (searchStep a) st).1 = weight (realized (applyBinning a q))) := by
  intro ps
  induction ps with
  | nil =>
    intro st
    exact ⟨le_refl _, by simp, Or.inl ⟨rfl, rfl⟩⟩
  | cons p ps ih =>
    intro st
    rw [List.foldl_cons]
    by_cases hnan : scoreIsNaN (realized (applyBinning a p)) = true
    · have hst' : searchStep a st p = st := by
        unfold searchStep
        rw [if_pos hnan]
      rw [hst']
      rcases ih st with ⟨ih1, ih2, ih3⟩
      refine ⟨ih1, ?_, ?_⟩
      · intro q hq
        rcases List.mem_cons.mp hq with rfl | hq'
        · exact Or.inl hnan
        · exact ih2 q hq'
      · rcases ih3 with h | ⟨q, hq, h1, h2, h3⟩
        · exact Or.inl h
        · exact Or.inr ⟨q, by simp [hq], h1, h2, h3⟩
    · have hnan' : scoreIsNaN (realized (applyBinning a p)) = false := by
        simpa using hnan
      by_cases hlt : weight (realized (applyBinning a p)) < st.1
      · have hst' : searchStep a st p =
            (weight (realized (applyBinning a p)), some p) := by
          unfold searchStep
          rw [if_neg hnan, if_pos hlt]
        rw [hst']
        rcases ih (weight (realized (applyBinning a p)), some p) with ⟨ih1, ih2, ih3⟩
        refine ⟨le_trans ih1 (le_of_lt hlt), ?_, ?_⟩
        · intro q hq
          rcases List.mem_cons.mp hq with rfl | hq'
          · exact Or.inr ih1
          · exact ih2 q hq'
        · rcases ih3 with ⟨h1, h2⟩ | ⟨q, hq, h1, h2, h3⟩
          · exact Or.inr ⟨p, by simp, h1, hnan', h2⟩
          · exact Or.inr ⟨q, by simp [hq], h1, h2, h3⟩
      · have hst' : searchStep a st p = st := by
          unfold searchStep
          rw [if_neg hnan, if_neg hlt]
        rw [hst']
        rcases ih st with ⟨ih1, ih2, ih3⟩
        refine ⟨ih1, ?_, ?_⟩
        · intro q hq
          rcases List.mem_cons.mp hq with rfl | hq'
          · exact Or.inr (le_trans ih1 (by omega))
          · exact ih2 q hq'
        · rcases ih3 with h | ⟨q, hq, h1, h2, h3⟩
          · exact Or.inl h
          · exact Or.inr ⟨q, by simp [hq], h1, h2, h3⟩

/-- Shape of a successful exact search: the input was non-empty, the returned
array is the winning binning applied, the winner scored non-NaN, and its
weight bounds every other non-NaN candidate from below. -/
theorem binSequence_ok_spec {a : List ℤ} {nbins : ℕ} {b : List (Option ℕ)}
    (hok : binSequence a nbins = .ok b) :
    a ≠ [] ∧ ∃ p₀ ∈ generateBins (rangeList (minI a) (maxI a)) nbins,
      b = applyBinning a p₀ ∧
      scoreIsNaN (realized (applyBinning a p₀)) = false ∧
      ∀ q ∈ generateBins (rangeList (minI a) (maxI a)) nbins,
        scoreIsNaN (realized (applyBinning a q)) = true ∨
        weight (realized (applyBinning a p₀)) ≤
          weight (realized (applyBinning a q)) := by
  cases a with
  | nil => cases hok
  | cons x xs =>
    unfold binSequence at hok
    rcases hres : (searchFold (x :: xs) nbins).2 with _ | p₀
    · rw [hres] at hok
      cases hok
    · rw [hres] at hok
      have hb : b = applyBinning (x :: xs) p₀ := (Except.ok.inj hok).symm
      rcases foldl_searchStep_spec (x :: xs)
        (generateBins (rangeList (minI (x :: xs)) (maxI (x :: xs))) nbins)
        ((x :: xs).length ^ (x :: xs).length, none) with ⟨h1, h2, h3⟩
      rcases h3 with ⟨hnone, _⟩ | ⟨q, hq, hsome, hqnan, hqw⟩
      · rw [show (generateBins (rangeList (minI (x :: xs)) (maxI (x :: xs)))
            nbins).foldl (searchStep (x :: xs))
            ((x :: xs).length ^ (x :: xs).length, none) = searchFold (x :: xs) nbins
            from rfl] at hnone
        rw [hres] at hnone
        cases hnone
      · rw [show (generateBins (rangeList (minI (x :: xs)) (maxI (x :: xs)))
            nbins).foldl (searchStep (x :: xs))
            ((x :: xs).length ^ (x :: xs).length, none) = searchFold (x :: xs) nbins
            from rfl] at hsome hqw
        rw [hres] at hsome
        have hq0 : q = p₀ := by
          injection hsome with h'
          exact h'.symm
        subst hq0
        refine ⟨by simp, q, hq, hb, hqnan, ?_⟩
        intro q' hq'
        rcases h2 q' hq' with h | h
        · exact Or.inl h
        · rw [show (generateBins (rangeList (minI (x :: xs)) (maxI (x :: xs)))
              nbins).foldl (searchStep (x :: xs))
              ((x :: xs).length ^ (x :: xs).length, none) = searchFold (x :: xs) nbins
              from rfl] at h
          rw [hqw] at h
          exact Or.inr h

theorem cIn_eq_zero_iff {a g : List ℤ} : cIn a g = 0 ↔ ∀ x ∈ a, x ∉ g := by
  unfold cIn
  rw [List.countP_eq_zero]
  constructor
  · intro h x hx
    have := h x hx
    simpa using this
  · intro h x hx
    simpa using h x hx

theorem cIn_ne_zero_of_mem {a g : List ℤ} {x : ℤ} (hxa : x ∈ a) (hxg : x ∈ g) :
    cIn a g ≠ 0 := by
  intro hc
  exact (cIn_eq_zero_iff.mp hc) x hxa hxg

theorem cIn_append_of_left_empty {a g g' : List ℤ} (h : ∀ x ∈ a, x ∉ g) :
    cIn a (g ++ g') = cIn a g' := by
  unfold cIn
  apply List.countP_congr
  intro x hx
  simp only [decide_eq_true_eq, List.mem_append]
  constructor
  · rintro (hm | hm)
    · exact absurd hm (h x hx)
    · exact hm
  · exact Or.inr

theorem cIn_append_disjoint {t1 t2 : List ℤ} (hdisj : t1.Disjoint t2)
    (a : List ℤ) : cIn a (t1 ++ t2) = cIn a t1 + cIn a t2 := by
  induction a with
  | nil => rfl
  | cons x rest ih =>
    unfold cIn at ih ⊢
    rw [List.countP_cons, List.countP_cons, List.countP_cons, ih]
    by_cases h1 : x ∈ t1
    · have h2 : x ∉ t2 := fun hc => hdisj h1 hc
      simp only [List.mem_append, h1, h2, decide_eq_true_eq]
      simp [h1, h2]
      omega
    · by_cases h2 : x ∈ t2
      · simp only [List.mem_append, decide_eq_true_eq]
        simp [h1, h2]
        omega
      · simp only [List.mem_append, decide_eq_true_eq]
        simp [h1, h2]

theorem pweight_append (a : List ℤ) (u v : List (List ℤ)) :
    pweight a (u ++ v) = pweight a u * pweight a v := by
  unfold pweight
  rw [List.map_append, List.prod_append]

theorem pweight_cons (a : List ℤ) (g : List ℤ) (q : List (List ℤ)) :
    pweight a (g :: q) = cIn a g ^ cIn a g * pweight a q := by
  unfold pweight
  rw [List.map_cons, List.prod_cons]

theorem mul_pow_self_le (c1 c2 : ℕ) :
    c1 ^ c1 * c2 ^ c2 ≤ (c1 + c2) ^ (c1 + c2) := by
  calc c1 ^ c1 * c2 ^ c2
      ≤ (c1 + c2) ^ c1 * (c1 + c2) ^ c2 :=
        Nat.mul_le_mul (Nat.pow_le_pow_left (by omega) _)
          (Nat.pow_le_pow_left (by omega) _)
    _ = (c1 + c2) ^ (c1 + c2) := (pow_add _ _ _).symm

theorem headD_mem {l : List ℤ} (h : l ≠ []) (d : ℤ) : l.headD d ∈ l := by
  cases l with
  | nil => exact absurd rfl h
  | cons x xs => simp

/-- Splitting a group that holds two distinct elements into two non-empty
contiguous halves separating them. -/
theorem split_group {t : List ℤ} {x y : ℤ} (hx : x ∈ t) (hy : y ∈ t)
    (hxy : x ≠ y) :
    ∃ t1 t2, t = t1 ++ t2 ∧ t1 ≠ [] ∧ t2 ≠ [] ∧
      ((x ∈ t1 ∧ y ∈ t2) ∨ (y ∈ t1 ∧ x ∈ t2)) := by
  have hix : t.indexOf x < t.length := List.indexOf_lt_length.mpr hx
  have hiy : t.indexOf y < t.length := List.indexOf_lt_length.mpr hy
  have hne : t.indexOf x ≠ t.indexOf y := by
    intro hc
    apply hxy
    have h1 := List.getElem_indexOf hix
    have h2 := List.getElem_indexOf hiy
    rw [← h1, ← h2]
    congr 1
  have key : ∀ (u v : ℤ), u ∈ t → v ∈ t → t.indexOf u < t.indexOf v →
      u ∈ t.take (t.indexOf u + 1) ∧ v ∈ t.drop (t.indexOf u + 1) ∧
      t.take (t.indexOf u + 1) ≠ [] ∧ t.drop (t.indexOf u + 1) ≠ [] := by
    intro u v hu hv huv
    have hiu : t.indexOf u < t.length := List.indexOf_lt_length.mpr hu
    have hiv : t.indexOf v < t.length := List.indexOf_lt_length.mpr hv
    refine ⟨?_, ?_, ?_, ?_⟩
    · rw [List.mem_iff_getElem]
      refine ⟨t.indexOf u, ?_, ?_⟩
      · rw [List.length_take]
        omega
      · rw [List.getElem_take]
        exact List.getElem_indexOf hiu
    · rw [List.mem_iff_getElem]
      refine ⟨t.indexOf v - (t.indexOf u + 1), ?_, ?_⟩
      · rw [List.length_drop]
        omega
      · rw [List.getElem_drop]
        have hidx : t.indexOf u + 1 + (t.indexOf v - (t.indexOf u + 1)) =
            t.indexOf v := by omega
        have ha1 : t[t.indexOf u + 1 + (t.indexOf v - (t.indexOf u + 1))]? =
            some v := by
          rw [hidx, List.getElem?_eq_getElem hiv, List.getElem_indexOf hiv]
        have ha2 := List.getElem?_eq_getElem
          (show t.indexOf u + 1 + (t.indexOf v - (t.indexOf u + 1)) < t.length
            by omega)
        rw [ha2] at ha1
        exact Option.some.inj ha1
    · intro hc
      rcases List.take_eq_nil_iff.mp hc with h | h
      · omega
      · rw [h] at hiu
        cases hiu
    · intro hc
      have := List.drop_eq_nil_iff.mp hc
      omega
  rcases Nat.lt_or_ge (t.indexOf x) (t.indexOf y) with h | h
  · rcases key x y hx hy h with ⟨h1, h2, h3, h4⟩
    exact ⟨_, _, (List.take_append_drop _ t).symm, h3, h4, Or.inl ⟨h1, h2⟩⟩
  · have h' : t.indexOf y < t.indexOf x := by omega
    rcases key y x hy hx h' with ⟨h1, h2, h3, h4⟩
    exact ⟨_, _, (List.take_append_drop _ t).symm, h3, h4, Or.inr ⟨h1, h2⟩⟩

/-- Pigeonhole: if a fully realized `nbins`-partition of `base` exists, then
any decomposition of `base` into only `nbins - 1` groups has some group
holding two distinct data values. -/
theorem exists_two_values_in_group
    {a base : List ℤ} (hnd : base.Nodup) {nbins : ℕ}
    {p₀ : List (List ℤ)} (hp₀ : IsNPartition base nbins p₀)
    (hp₀r : ∀ g ∈ p₀, cIn a g ≠ 0)
    {m : List (List ℤ)} (hmflat : m.flatten = base)
    (hmlen : m.length + 1 = nbins) :
    ∃ i < m.length, ∃ x y : ℤ, x ∈ a ∧ y ∈ a ∧ x ≠ y ∧
      x ∈ m.getD i [] ∧ y ∈ m.getD i [] := by
  classical
  have hpickmem : ∀ g ∈ p₀,
      (a.filter (fun x => decide (x ∈ g))).headD 0 ∈ a ∧
      (a.filter (fun x => decide (x ∈ g))).headD 0 ∈ g := by
    intro g hg
    have hfne : a.filter (fun x => decide (x ∈ g)) ≠ [] := by
      intro hc
      apply hp₀r g hg
      unfold cIn
      rw [List.countP_eq_length_filter, hc]
      rfl
    have hmem := headD_mem hfne 0
    have := List.mem_filter.mp hmem
    exact ⟨this.1, by simpa using this.2⟩
  have hnodup₀ : p₀.flatten.Nodup := by rw [hp₀.2.1]; exact hnd
  have hdisj : List.Pairwise List.Disjoint p₀ := (List.nodup_flatten.mp hnodup₀).2
  have hvsnodup : (p₀.map (fun g => (a.filter (fun x => decide (x ∈ g))).headD 0)).Nodup := by
    rw [List.Nodup, List.pairwise_map]
    apply List.Pairwise.imp_of_mem ?_ hdisj
    intro g h hgm hhm hdis heq
    have h1 := (hpickmem g hgm).2
    have h2 := (hpickmem h hhm).2
    rw [heq] at h1
    exact hdis h1 h2
  have hval : ∀ v ∈ p₀.map (fun g => (a.filter (fun x => decide (x ∈ g))).headD 0),
      v ∈ a ∧ v ∈ m.flatten := by
    intro v hv
    rcases List.mem_map.mp hv with ⟨g, hg, rfl⟩
    refine ⟨(hpickmem g hg).1, ?_⟩
    rw [hmflat, ← hp₀.2.1]
    exact List.mem_flatten.mpr ⟨g, hg, (hpickmem g hg).2⟩
  have hfprop : ∀ v ∈ p₀.map (fun g => (a.filter (fun x => decide (x ∈ g))).headD 0),
      (binIndexLast m v).getD 0 < m.length ∧
      v ∈ m.getD ((binIndexLast m v).getD 0) [] := by
    intro v hv
    have hsome := (binIndexLast_isSome_iff m v).mpr (hval v hv).2
    rcases Option.isSome_iff_exists.mp hsome with ⟨j, hj⟩
    rcases binIndexLast_some m v j hj with ⟨hjl, hjm⟩
    rw [hj]
    exact ⟨by simpa using hjl, by simpa using hjm⟩
  have hcard : (p₀.map (fun g => (a.filter (fun x => decide (x ∈ g))).headD 0)).toFinset.card
      = nbins := by
    rw [List.toFinset_card_of_nodup hvsnodup, List.length_map, hp₀.1]
  have hmaps : ∀ v ∈ (p₀.map (fun g => (a.filter (fun x => decide (x ∈ g))).headD 0)).toFinset,
      (binIndexLast m v).getD 0 ∈ Finset.range m.length := by
    intro v hv
    rw [List.mem_toFinset] at hv
    rw [Finset.mem_range]
    exact (hfprop v hv).1
  have hlt : (Finset.range m.length).card <
      (p₀.map (fun g => (a.filter (fun x => decide (x ∈ g))).headD 0)).toFinset.card := by
    rw [Finset.card_range, hcard]
    omega
  rcases Finset.exists_ne_map_eq_of_card_lt_of_maps_to hlt hmaps with
    ⟨x, hx, y, hy, hxy, hfxy⟩
  rw [List.mem_toFinset] at hx hy
  refine ⟨(binIndexLast m x).getD 0, (hfprop x hx).1, x, y,
    (hval x hx).1, (hval y hy).1, hxy, (hfprop x hx).2, ?_⟩
  rw [hfxy]
  exact (hfprop y hy).2

/-- Surgery: any valid `nbins`-partition of `base` is weight-dominated by a
valid `nbins`-partition all of whose groups hold at least one data value,
provided one such fully realized partition exists at all.  The induction is on
the number of data-empty groups: an empty group is merged into its right
neighbour (an empty last group is impossible because the last element of
`base` is a data value), and the pigeonhole principle then provides a group
holding two distinct data values which is split back into two non-empty
halves; merging leaves the weight unchanged (`0 ^ 0 = 1`) and splitting never
increases it. -/
theorem surgery {a base : List ℤ} (hnd : base.Nodup) {nbins : ℕ}
    {p₀ : List (List ℤ)} (hp₀ : IsNPartition base nbins p₀)
    (hp₀r : ∀ g ∈ p₀, cIn a g ≠ 0)
    {z : ℤ} (hz : z ∈ a) (hzl : base.getLast? = some z) :
    ∀ (e : ℕ) (q : List (List ℤ)),
      q.countP (fun g => cIn a g == 0) = e → IsNPartition base nbins q →
      ∃ q', IsNPartition base nbins q' ∧ (∀ g ∈ q', cIn a g ≠ 0) ∧
        pweight a q' ≤ pweight a q := by
  intro e
  induction e using Nat.strong_induction_on with
  | _ e ih =>
    intro q hcount hq
    by_cases hE : e = 0
    · refine ⟨q, hq, ?_, le_refl _⟩
      intro g hg
      subst hE
      have := List.countP_eq_zero.mp hcount g hg
      simpa using this
    · have hpos : 0 < q.countP (fun g => cIn a g == 0) := by omega
      rcases List.countP_pos_iff.mp hpos with ⟨g, hgq, hgp⟩
      have hg0 : cIn a g = 0 := by simpa using hgp
      rcases List.append_of_mem hgq with ⟨u, v, rfl⟩
      cases v with
      | nil =>
        exfalso
        have hqne : u ++ [g] ≠ ([] : List (List ℤ)) := by simp
        have hlast := getLast_mem_last_group (u ++ [g]) z hqne hq.2.2
          (by rw [hq.2.1]; exact hzl)
        have hidx : (u ++ [g]).length - 1 = u.length := by simp
        rw [hidx] at hlast
        have hgd : (u ++ [g]).getD u.length [] = g := by
          rw [List.getD_eq_getElem?_getD, List.getElem?_append_right (le_refl _)]
          simp
        rw [hgd] at hlast
        exact cIn_ne_zero_of_mem hz hlast hg0
      | cons g' v' =>
        have hge : ∀ x ∈ a, x ∉ g := cIn_eq_zero_iff.mp hg0
        have hg'ne : g' ≠ [] := hq.2.2 g' (by simp)
        have hmf : (u ++ (g ++ g') :: v').flatten = base := by
          rw [← hq.2.1]
          simp [List.flatten_append, List.flatten_cons, List.append_assoc]
        have hml : (u ++ (g ++ g') :: v').length + 1 = nbins := by
          have h1 := hq.1
          simp only [List.length_append, List.length_cons] at h1 ⊢
          omega
        have hmne : ∀ gg ∈ u ++ (g ++ g') :: v', gg ≠ [] := by
          intro gg hgg
          rcases List.mem_append.mp hgg with h | h
          · exact hq.2.2 gg (by simp [h])
          · rcases List.mem_cons.mp h with rfl | h
            · intro hc
              exact hg'ne (List.append_eq_nil.mp hc).2
            · exact hq.2.2 gg (by simp [h])
        rcases exists_two_values_in_group hnd hp₀ hp₀r hmf hml with
          ⟨i, hi, x, y, hxa, hya, hxy, hxm, hym⟩
        have hgd : (u ++ (g ++ g') :: v').getD i [] = (u ++ (g ++ g') :: v')[i] :=
          List.getD_eq_getElem _ _ hi
        rw [hgd] at hxm hym
        rcases split_group hxm hym hxy with ⟨t1, t2, htdec, ht1, ht2, hsep⟩
        have hmdec : u ++ (g ++ g') :: v' =
            (u ++ (g ++ g') :: v').take i ++
              (u ++ (g ++ g') :: v')[i] :: (u ++ (g ++ g') :: v').drop (i + 1) := by
          conv_lhs => rw [← List.take_append_drop i (u ++ (g ++ g') :: v')]
          rw [List.drop_eq_getElem_cons hi]
        have hc1 : cIn a t1 ≠ 0 := by
          rcases hsep with ⟨h1, _⟩ | ⟨h1, _⟩
          · exact cIn_ne_zero_of_mem hxa h1
          · exact cIn_ne_zero_of_mem hya h1
        have hc2 : cIn a t2 ≠ 0 := by
          rcases hsep with ⟨_, h2⟩ | ⟨_, h2⟩
          · exact cIn_ne_zero_of_mem hya h2
          · exact cIn_ne_zero_of_mem hxa h2
        have hdisj : t1.Disjoint t2 := by
          have hflat : (u ++ (g ++ g') :: v').flatten.Nodup := by
            rw [hmf]; exact hnd
          have hti : (u ++ (g ++ g') :: v')[i].Nodup :=
            (List.nodup_flatten.mp hflat).1 _ (List.getElem_mem hi)
          rw [htdec] at hti
          exact (List.nodup_append.mp hti).2.2
        have hct : cIn a ((u ++ (g ++ g') :: v')[i]) = cIn a t1 + cIn a t2 := by
          rw [htdec]
          exact cIn_append_disjoint hdisj a
        -- the candidate partition after the split
        have hq' : IsNPartition base nbins
            ((u ++ (g ++ g') :: v').take i ++
              t1 :: t2 :: (u ++ (g ++ g') :: v').drop (i + 1)) := by
          refine ⟨?_, ?_, ?_⟩
          · have hmlen' : (u ++ (g ++ g') :: v').length
                = u.length + v'.length + 1 := by
              simp only [List.length_append, List.length_cons]
              omega
            rw [List.length_append, List.length_cons, List.length_cons,
              List.length_take, List.length_drop, hmlen']
            have h4 : i < u.length + v'.length + 1 := by
              rw [hmlen'] at hi; exact hi
            have h5 := hml
            rw [hmlen'] at h5
            omega
          · rw [← hmf]
            conv_rhs => rw [hmdec]
            simp [List.flatten_append, List.flatten_cons, htdec,
              List.append_assoc]
          · intro gg hgg
            rcases List.mem_append.mp hgg with h | h
            · exact hmne gg (List.take_subset _ _ h)
            · rcases List.mem_cons.mp h with rfl | h
              · exact ht1
              · rcases List.mem_cons.mp h with rfl | h
                · exact ht2
                · exact hmne gg (List.drop_subset _ _ h)
        -- counting data-empty groups
        have hcnt_m : (u ++ (g ++ g') :: v').countP (fun g => cIn a g == 0)
            = e - 1 := by
          rw [List.countP_append, List.countP_cons] at hcount ⊢
          rw [List.countP_cons] at hcount
          have hgg' : cIn a (g ++ g') = cIn a g' := cIn_append_of_left_empty hge
          simp only [hgg', hg0] at hcount ⊢
          simp only [beq_self_eq_true, if_pos] at hcount
          omega
        have hcnt_q' : ((u ++ (g ++ g') :: v').take i ++
              t1 :: t2 :: (u ++ (g ++ g') :: v').drop (i + 1)).countP
              (fun g => cIn a g == 0) = e - 1 := by
          rw [← hcnt_m]
          conv_rhs => rw [hmdec]
          rw [List.countP_append, List.countP_cons, List.countP_cons,
            List.countP_append, List.countP_cons]
          have hto : cIn a ((u ++ (g ++ g') :: v')[i]) ≠ 0 := by
            rw [hct]; omega
          simp only [beq_iff_eq]
          rw [if_neg (by simpa using hc2), if_neg (by simpa using hc1),
            if_neg (by simpa using hto)]
        -- the split does not increase the weight; the merge preserves it
        have hw2 : pweight a ((u ++ (g ++ g') :: v').take i ++
              t1 :: t2 :: (u ++ (g ++ g') :: v').drop (i + 1))
            ≤ pweight a (u ++ (g ++ g') :: v') := by
          conv_rhs => rw [hmdec]
          rw [pweight_append, pweight_append, pweight_cons, pweight_cons,
            pweight_cons, hct]
          have hkey := mul_pow_self_le (cIn a t1) (cIn a t2)
          calc pweight a ((u ++ (g ++ g') :: v').take i) *
                (cIn a t1 ^ cIn a t1 * (cIn a t2 ^ cIn a t2 *
                  pweight a ((u ++ (g ++ g') :: v').drop (i + 1))))
              = pweight a ((u ++ (g ++ g') :: v').take i) *
                ((cIn a t1 ^ cIn a t1 * cIn a t2 ^ cIn a t2) *
                  pweight a ((u ++ (g ++ g') :: v').drop (i + 1))) := by ring
            _ ≤ pweight a ((u ++ (g ++ g') :: v').take i) *
                ((cIn a t1 + cIn a t2) ^ (cIn a t1 + cIn a t2) *
                  pweight a ((u ++ (g ++ g') :: v').drop (i + 1))) := by
                exact Nat.mul_le_mul (le_refl _) (Nat.mul_le_mul hkey (le_refl _))
        have hw1 : pweight a (u ++ (g ++ g') :: v')
            = pweight a (u ++ g :: g' :: v') := by
          rw [pweight_append, pweight_append, pweight_cons, pweight_cons,
            pweight_cons, cIn_append_of_left_empty hge, hg0]
          simp [pow_zero]
        rcases ih (e - 1) (by omega) _ hcnt_q' hq' with ⟨q'', hqp'', hqr'', hwle⟩
        exact ⟨q'', hqp'', hqr'',
          hwle.trans (hw2.trans (le_of_eq hw1))⟩

/-- C1: whenever `bin_sequence(a, nbins)` returns a result, the Shannon
entropy (base 2) of the returned binned sequence is at least the entropy
obtained by applying any valid partition of the value range
`[min(a), max(a)]` into `nbins` contiguous non-empty groups to `a`
(global optimality of the exact search).  The search skips candidates whose
score is NaN, but every such candidate is weight-dominated by a fully
realized candidate that is not skipped, so optimality still holds. -/
theorem C1_exact_search_optimal (a : List ℤ) (nbins : ℕ) (b : List (Option ℕ))
    (p : List (List ℤ))
    (hok : binSequence a nbins = Except.ok b)
    (hp : IsNPartition (rangeList (minI a) (maxI a)) nbins p) :
    getH (applyBinning a p) ≤ getH b := by
  rcases binSequence_ok_spec hok with ⟨ha, p₀, hp₀mem, hb, hp₀nan, hdom⟩
  have hbasene : rangeList (minI a) (maxI a) ≠ [] :=
    rangeList_ne_nil (minI_le_maxI ha)
  have hn1 : 1 ≤ nbins := by
    by_contra h
    have h0 : nbins = 0 := by omega
    have hpnil : p = [] := List.length_eq_zero.mp (by rw [hp.1, h0])
    rw [hpnil] at hp
    exact hbasene hp.2.1.symm
  have hp₀ : IsNPartition (rangeList (minI a) (maxI a)) nbins p₀ :=
    isNPartition_of_mem_generateBins hbasene hn1 hp₀mem
  have hp₀r : ∀ g ∈ p₀, cIn a g ≠ 0 :=
    (scoreIsNaN_realized_iff ha hp₀).mp hp₀nan
  have hnd : (rangeList (minI a) (maxI a)).Nodup := rangeList_nodup _ _
  have hzl : (rangeList (minI a) (maxI a)).getLast? = some (maxI a) :=
    rangeList_getLast? (minI_le_maxI ha)
  rcases surgery hnd hp₀ hp₀r (maxI_mem ha) hzl _ p rfl hp with
    ⟨q', hq', hq'r, hq'w⟩
  have hq'mem := mem_generateBins_of_isNPartition hbasene hq'
  have hq'nan : scoreIsNaN (realized (applyBinning a q')) = false :=
    (scoreIsNaN_realized_iff ha hq').mpr hq'r
  have hwle : weight (realized (applyBinning a p₀)) ≤
      weight (realized (applyBinning a q')) := by
    rcases hdom q' hq'mem with h | h
    · rw [h] at hq'nan
      cases hq'nan
    · exact h
  have hwq' : weight (realized (applyBinning a q')) = pweight a q' :=
    weight_realized ha hq'
  have hwp : weight (realized (applyBinning a p)) = pweight a p :=
    weight_realized ha hp
  have hfinal : weight (realized (applyBinning a p₀)) ≤
      weight (realized (applyBinning a p)) := by
    rw [hwp]
    exact hwle.trans (hwq' ▸ hq'w)
  have hr₀ne : realized (applyBinning a p₀) ≠ [] := by
    intro hc
    have hlen := realized_length hp₀
    rw [hc] at hlen
    exact ha (List.length_eq_zero.mp hlen.symm)
  have hrpne : realized (applyBinning a p) ≠ [] := by
    intro hc
    have hlen := realized_length hp
    rw [hc] at hlen
    exact ha (List.length_eq_zero.mp hlen.symm)
  have hlen : (realized (applyBinning a p₀)).length =
      (realized (applyBinning a p)).length := by
    rw [realized_length hp₀, realized_length hp]
  rw [hb]
  exact getH_le_of_weight_le hr₀ne hrpne hlen hfinal

/-- Witness for C1 at `a = [0, 0, 1]`, `nbins = 2`: the search returns the
cut `{0} | {1}` and it dominates the (identical) explicit partition. -/
theorem C1_exact_search_optimal_witness :
    binSequence [0, 0, 1] 2 = Except.ok [some 0, some 0, some 1] ∧
    IsNPartition (rangeList (minI [0, 0, 1]) (maxI [0, 0, 1])) 2 [[0], [1]] ∧
    getH (applyBinning [0, 0, 1] [[0], [1]]) ≤ getH [some 0, some 0, some 1] :=
  ⟨by rfl, by decide,
    C1_exact_search_optimal [0, 0, 1] 2 [some 0, some 0, some 1] [[0], [1]]
      (by rfl) (by decide)⟩

end Ebb
